/-
Verification of the transcript-ingestion and temporal-alignment pipeline of
`video_processor.py` (sales-video-review repository).

The Python source is shallowly embedded: timestamps are modelled as exact
rationals (ℚ), Python strings as `String`/`List Char`, Python `None` as
`Option`.  Each definition carries a comment naming the Python function it
embeds.  Regular expressions are modelled either by transparent hand-rolled
prefix matchers (for the fixed-shape timestamp patterns) or by a small
backtracking regex engine (for the line-level patterns), both following
Python `re.match` semantics (match at start of string, greedy with
backtracking).  `\d` is modelled as the ASCII digits and `\s` as the ASCII
whitespace class; Python's `float()` builtin is modelled on finite decimal
literals (sign, digits, fraction, exponent) — the special values inf/nan and
underscore digit separators are outside the model.
-/
import Mathlib

namespace VP

/-! ### Character and string helpers (Python built-ins) -/

/-- ASCII decimal digit test; model of `\d` in the source's regexes and of
`str.isdigit` for the characters that actually occur in timestamps. -/
def isDigitC (c : Char) : Bool := 48 ≤ c.toNat && c.toNat ≤ 57

/-- Numeric value of a digit character. -/
def dVal (c : Char) : ℕ := c.toNat - '0'.toNat

/-- Value of a digit string, most significant first (model of `int(...)`). -/
def digitsVal (cs : List Char) : ℕ := cs.foldl (fun a c => 10 * a + dVal c) 0

/-- ASCII whitespace; model of Python's `\s` class and `str.strip` set. -/
def isPySpace (c : Char) : Bool :=
  c = ' ' || c = '\t' || c = '\n' || c = '\r' || c = '\x0b' || c = '\x0c'

/-- Model of Python `str.strip()`. -/
def pyStrip (cs : List Char) : List Char :=
  ((cs.dropWhile isPySpace).reverse.dropWhile isPySpace).reverse

/-- Model of Python `str.split('\n')` (`"".split('\n') = ['']`). -/
def splitNl : List Char → List (List Char)
  | [] => [[]]
  | '\n' :: t => [] :: splitNl t
  | c :: t =>
    match splitNl t with
    | l :: ls => (c :: l) :: ls
    | [] => [[c]]

/-- Model of Python `' '.join(parts)`. -/
def joinSp : List (List Char) → List Char
  | [] => []
  | [x] => x
  | x :: y :: t => x ++ ' ' :: joinSp (y :: t)

/-- Model of Python `str.split()` (split on whitespace runs, no empties);
used only through `wordCount`. -/
def splitWs : List Char → List (List Char)
  | [] => []
  | c :: t =>
    if isPySpace c then splitWs t
    else
      match splitWs t with
      | [] => [[c]]
      | w :: ws =>
        match t with
        | [] => [[c]]
        | d :: _ => if isPySpace d then [c] :: w :: ws else (c :: w) :: ws

/-- Model of `len(s.split())`. -/
def wordCount (cs : List Char) : ℕ := (splitWs cs).length

/-- Model of `any(ch.isdigit() for ch in s)` (ASCII digits). -/
def hasDigitC (cs : List Char) : Bool := cs.any isDigitC

/-- Fuel-driven worker for `stripTags`; fuel `cs.length` always suffices. -/
def stripTagsF : ℕ → List Char → List Char
  | 0, cs => cs
  | _ + 1, [] => []
  | f + 1, '<' :: rest =>
    match rest.dropWhile (fun c => c != '>') with
    | '>' :: tail =>
      if rest.takeWhile (fun c => c != '>') = [] then '<' :: stripTagsF f rest
      else stripTagsF f tail
    | _ => '<' :: stripTagsF f rest
  | f + 1, c :: rest => c :: stripTagsF f rest

/-- Model of `re.sub(r'<[^>]+>', '', s)`: remove every leftmost
non-overlapping `<...>` run with a non-empty body. -/
def stripTags (cs : List Char) : List Char := stripTagsF cs.length cs

/-! ### Decimal rendering (Python f-string `{n}` / `{n:02d}`) -/

/-- Digit character for a value below ten. -/
def digitCh : ℕ → Char
  | 0 => '0' | 1 => '1' | 2 => '2' | 3 => '3' | 4 => '4'
  | 5 => '5' | 6 => '6' | 7 => '7' | 8 => '8' | _ => '9'

/-- Fuel-driven decimal rendering; fuel `n+1` always suffices. -/
def natReprAux : ℕ → ℕ → List Char
  | 0, _ => []
  | f + 1, n => if n < 10 then [digitCh n] else natReprAux f (n / 10) ++ [digitCh (n % 10)]

/-- Decimal rendering of a natural number (Python `f"{n}"`). -/
def natRepr (n : ℕ) : List Char := natReprAux (n + 1) n

/-- Decimal rendering of an integer (Python `f"{n:d}"`). -/
def intRepr (n : ℤ) : List Char := if n < 0 then '-' :: natRepr (-n).toNat else natRepr n.toNat

/-- Python `f"{n:02d}"`: pad with a leading zero to width two. -/
def padZero2 (n : ℤ) : List Char :=
  if (intRepr n).length < 2 then '0' :: intRepr n else intRepr n

/-! ### Timestamp parsing (`parse_timestamp`, lines 67–99)

The four regexes `(\d{1,2}):(\d{2}):(\d{2})[,.](\d{3})`, `(\d{1,2}):(\d{2}):(\d{2})`,
`(\d{1,2}):(\d{2})[,.](\d{3})` and `(\d{1,2}):(\d{2})` are prefix matchers.
`\d{1,2}` is greedy with backtracking: two digits are tried first; if the rest
of the pattern then fails, one digit is retried.  `readDigit`/`read2`/`read3`
consume fixed-width digit fields and `match12` implements the greedy
two-then-one alternative exactly. -/

/-- Consume one ASCII digit. -/
def readDigit : List Char → Option (ℕ × List Char)
  | c :: r => if isDigitC c then some (dVal c, r) else none
  | [] => none

/-- Consume exactly two digits (`\d{2}`). -/
def read2 (cs : List Char) : Option (ℕ × List Char) :=
  (readDigit cs).bind fun a => (readDigit a.2).map fun b => (10 * a.1 + b.1, b.2)

/-- Consume exactly three digits (`\d{3}`). -/
def read3 (cs : List Char) : Option (ℕ × List Char) :=
  (readDigit cs).bind fun a => (read2 a.2).map fun b => (100 * a.1 + b.1, b.2)

/-- Consume a literal character. -/
def readCh (c : Char) : List Char → Option (List Char)
  | x :: r => if x = c then some r else none
  | [] => none

/-- Consume `[,.]`. -/
def readSep : List Char → Option (List Char)
  | x :: r => if x = ',' ∨ x = '.' then some r else none
  | [] => none

/-- Tail `:(\d{2}):(\d{2})[,.](\d{3})` of the first regex. -/
def tailMMSSms (cs : List Char) : Option (ℕ × ℕ × ℕ) :=
  (readCh ':' cs).bind fun cs₁ =>
  (read2 cs₁).bind fun m =>
  (readCh ':' m.2).bind fun cs₃ =>
  (read2 cs₃).bind fun s =>
  (readSep s.2).bind fun cs₅ =>
  (read3 cs₅).map fun ms => (m.1, s.1, ms.1)

/-- Tail `:(\d{2}):(\d{2})` of the second regex. -/
def tailMMSS (cs : List Char) : Option (ℕ × ℕ) :=
  (readCh ':' cs).bind fun cs₁ =>
  (read2 cs₁).bind fun m =>
  (readCh ':' m.2).bind fun cs₃ =>
  (read2 cs₃).map fun s => (m.1, s.1)

/-- Tail `:(\d{2})[,.](\d{3})` of the third regex. -/
def tailSSms (cs : List Char) : Option (ℕ × ℕ) :=
  (readCh ':' cs).bind fun cs₁ =>
  (read2 cs₁).bind fun s =>
  (readSep s.2).bind fun cs₃ =>
  (read3 cs₃).map fun ms => (s.1, ms.1)

/-- Tail `:(\d{2})` of the fourth regex. -/
def tailSS (cs : List Char) : Option ℕ :=
  (readCh ':' cs).bind fun cs₁ =>
  (read2 cs₁).map fun s => s.1

/-- Greedy `(\d{1,2})` head followed by `tail`: try the two-digit head first,
then backtrack to the one-digit head, exactly as the regex engine does. -/
def match12 {α β : Type} (tail : List Char → Option α) (f : ℕ → α → β) :
    List Char → Option β
  | [] => none
  | c :: rest =>
    if isDigitC c then
      (match rest with
       | c₂ :: r₂ =>
         if isDigitC c₂ then (tail r₂).map (f (10 * dVal c + dVal c₂)) else none
       | [] => none).orElse
        (fun _ => (tail rest).map (f (dVal c)))
    else none

/-- Prefix match of `(\d{1,2}):(\d{2}):(\d{2})[,.](\d{3})`. -/
def matchHMSms : List Char → Option (ℕ × ℕ × ℕ × ℕ) :=
  match12 tailMMSSms (fun h x => (h, x.1, x.2.1, x.2.2))

/-- Prefix match of `(\d{1,2}):(\d{2}):(\d{2})`. -/
def matchHMS : List Char → Option (ℕ × ℕ × ℕ) :=
  match12 tailMMSS (fun h x => (h, x.1, x.2))

/-- Prefix match of `(\d{1,2}):(\d{2})[,.](\d{3})`. -/
def matchMSms : List Char → Option (ℕ × ℕ × ℕ) :=
  match12 tailSSms (fun m x => (m, x.1, x.2))

/-- Prefix match of `(\d{1,2}):(\d{2})`. -/
def matchMS : List Char → Option (ℕ × ℕ) :=
  match12 tailSS (fun m s => (m, s))

/-- Optional sign of an exponent: `(negative?, rest)`. -/
def readExpSign : List Char → Bool × List Char
  | '+' :: t => (false, t)
  | '-' :: t => (true, t)
  | r => (false, r)

/-- Optional exponent part followed by end of input; yields the scale factor
`10^±e`.  Part of the `float()` model. -/
def readExpEnd (cs : List Char) : Option ℚ :=
  match cs with
  | [] => some 1
  | e :: r =>
    if e = 'e' ∨ e = 'E' then
      let p := readExpSign r
      let ed := p.2.takeWhile isDigitC
      if ed = [] ∨ p.2.dropWhile isDigitC ≠ [] then none
      else some (if p.1 then 1 / 10 ^ digitsVal ed else 10 ^ digitsVal ed)
    else none

/-- Optional sign of a number: `(sign factor, rest)`. -/
def pySign : List Char → ℚ × List Char
  | '+' :: t => (1, t)
  | '-' :: t => (-1, t)
  | r => (1, r)

/-- The unsigned part of the `float()` model: digits, an optional fraction,
and an optional exponent, running to the end of the input. -/
def pyMantissa (cs₁ : List Char) : Option ℚ :=
  let ip := cs₁.takeWhile isDigitC
  let cs₂ := cs₁.dropWhile isDigitC
  match cs₂ with
  | '.' :: cs₃ =>
    let fp := cs₃.takeWhile isDigitC
    let cs₄ := cs₃.dropWhile isDigitC
    if ip = [] ∧ fp = [] then none
    else (readExpEnd cs₄).map
      (fun e => ((digitsVal ip : ℚ) + digitsVal fp / 10 ^ fp.length) * e)
  | _ =>
    if ip = [] then none
    else (readExpEnd cs₂).map (fun e => (digitsVal ip : ℚ) * e)

/-- Model of Python `float(ts)` on finite decimal literals
(`[+-]? (digits [. digits?] | . digits) ([eE][+-]?digits)?`); `inf`, `nan`
and underscore separators are outside the model.  Returns `none` where
`float()` raises `ValueError`. -/
def pyFloat? (cs : List Char) : Option ℚ :=
  let p := pySign cs
  (pyMantissa p.2).map (fun v => p.1 * v)

/-- `parse_timestamp` (lines 67–99): try the four colon notations in priority
order against the prefix of the stripped string, then `float`, else `0.0`. -/
def parse_timestamp (ts : String) : ℚ :=
  let cs := pyStrip ts.data
  match matchHMSms cs with
  | some (h, m, s, ms) => h * 3600 + m * 60 + s + (ms : ℚ) / 1000
  | none =>
  match matchHMS cs with
  | some (h, m, s) => h * 3600 + m * 60 + s
  | none =>
  match matchMSms cs with
  | some (m, s, ms) => m * 60 + s + (ms : ℚ) / 1000
  | none =>
  match matchMS cs with
  | some (m, s) => m * 60 + s
  | none => (pyFloat? cs).getD 0

/-- Python float modulo `a % b` for positive `b` (sign of the divisor). -/
def pyMod (a b : ℚ) : ℚ := a - b * ⌊a / b⌋

/-- `seconds_to_timestamp` (lines 102–107).  `int(x // 3600)` is `⌊x/3600⌋`
(`//` already floors and `int` is the identity on integral floats), and the
two `int(x % ...)` applications floor non-negative values. -/
def seconds_to_timestamp (x : ℚ) : String :=
  ⟨padZero2 ⌊x / 3600⌋ ++ ':' :: padZero2 ⌊pyMod x 3600 / 60⌋ ++
    ':' :: padZero2 ⌊pyMod x 60⌋⟩

/-! ### Canonical data model -/

/-- `TranscriptSegment` dataclass (lines 23–30). -/
structure TranscriptSegment where
  start_seconds : ℚ
  end_seconds : ℚ
  text : String
  speaker_id : Option String := none
  speaker_name : Option String := none
  deriving DecidableEq, Repr

/-- `SpeakerSegment` dataclass (lines 33–41): one consolidated turn. -/
structure SpeakerSegment where
  speaker_id : String
  speaker_name : Option String
  start_seconds : ℚ
  end_seconds : ℚ
  text : String
  word_count : ℕ
  deriving DecidableEq, Repr

/-- `SpeakerMetrics` dataclass (lines 44–54). -/
structure SpeakerMetrics where
  speaker_id : String
  speaker_name : Option String
  talk_time_seconds : ℚ
  talk_time_pct : ℚ
  word_count : ℕ
  speaking_pace_wpm : ℚ
  turn_count : ℕ
  avg_turn_length_seconds : ℚ
  deriving DecidableEq, Repr

/-! ### Rounding (Python `round`) -/

/-- Python `round` to the nearest integer: round-half-to-even. -/
def bankersRound (q : ℚ) : ℤ :=
  if q - ⌊q⌋ < 1 / 2 then ⌊q⌋
  else if 1 / 2 < q - ⌊q⌋ then ⌊q⌋ + 1
  else if 2 ∣ ⌊q⌋ then ⌊q⌋ else ⌊q⌋ + 1

/-- Python `round(q, 1)`. -/
def round1 (q : ℚ) : ℚ := (bankersRound (10 * q) : ℚ) / 10

/-- Python `round(q, 2)`. -/
def round2 (q : ℚ) : ℚ := (bankersRound (100 * q) : ℚ) / 100

/-! ### Speaker identity (`speaker_counter`, lines 173–178 / 232–237 / 312–317)

All three parsers run the same two lines over an insertion-ordered dict:
`if speaker not in speaker_counter: speaker_counter[speaker] =
f"speaker_{len(speaker_counter) + 1}"`.  The dict is modelled as an
association list in insertion order. -/

/-- The shared counter-update statement of the three parsers. -/
def update_speaker_counter (counter : List (String × String)) (label : String) :
    List (String × String) :=
  match counter.lookup label with
  | some _ => counter
  | none => counter ++ [(label, ⟨['s','p','e','a','k','e','r','_'] ++ natRepr (counter.length + 1)⟩)]

/-- The identifier string `f"speaker_{n}"`. -/
def speakerTag (n : ℕ) : String := ⟨['s','p','e','a','k','e','r','_'] ++ natRepr n⟩

/-! ### Turn consolidation and metrics (`compute_speaker_metrics`, lines 351–449) -/

/-- `seg.speaker_id or "unknown"` (Python truthiness: `None` and `""` are
falsy). -/
def resolveSpeaker : Option String → String
  | none => "unknown"
  | some s => if s = "" then "unknown" else s

/-- Close the turn currently being accumulated (lines 375–384, the mid-loop
`speaker_segments.append`). -/
def mkTurn (cur : String) (name : Option String) (st en : ℚ) (texts : List String) :
    SpeakerSegment :=
  let text : List Char := joinSp (texts.map String.data)
  { speaker_id := if cur = "" then "unknown" else cur
    speaker_name := name
    start_seconds := st
    end_seconds := en
    text := ⟨text⟩
    word_count := wordCount text }

/-- Close the final turn (lines 397–406: `speaker_name` is guarded by
`if current_speaker`). -/
def mkTurnLast (cur : String) (name : Option String) (st en : ℚ) (texts : List String) :
    SpeakerSegment :=
  let text : List Char := joinSp (texts.map String.data)
  { speaker_id := if cur = "" then "unknown" else cur
    speaker_name := if cur = "" then none else name
    start_seconds := st
    end_seconds := en
    text := ⟨text⟩
    word_count := wordCount text }

/-- Consolidation loop (lines 362–406) after the first segment has seeded the
accumulator. -/
def consolidateAux (cur : String) (name : Option String) (st en : ℚ)
    (texts : List String) : List TranscriptSegment → List SpeakerSegment
  | [] => [mkTurnLast cur name st en texts]
  | seg :: rest =>
    let sp := resolveSpeaker seg.speaker_id
    if sp = cur then consolidateAux cur name st seg.end_seconds (texts ++ [seg.text]) rest
    else mkTurn cur name st en texts ::
      consolidateAux sp seg.speaker_name seg.start_seconds seg.end_seconds [seg.text] rest

/-- Build the consolidated speaker turns of a segment list. -/
def consolidate : List TranscriptSegment → List SpeakerSegment
  | [] => []
  | seg :: rest =>
    consolidateAux (resolveSpeaker seg.speaker_id) seg.speaker_name
      seg.start_seconds seg.end_seconds [seg.text] rest

/-- Per-speaker accumulator entry (the `speaker_data` dict values,
lines 409–422). -/
structure SpeakerData where
  talk_time : ℚ
  word_count : ℕ
  turns : ℕ
  speaker_name : Option String
  deriving DecidableEq, Repr

/-- One `speaker_data` update for one turn (lines 411–422); the dict is an
insertion-ordered association list with unique keys, so updating the first
matching entry is the dict update. -/
def updateData : List (String × SpeakerData) → SpeakerSegment → List (String × SpeakerData)
  | [], t => [(t.speaker_id, ⟨t.end_seconds - t.start_seconds, t.word_count, 1, t.speaker_name⟩)]
  | (k, d) :: rest, t =>
    if k = t.speaker_id then
      (k, ⟨d.talk_time + (t.end_seconds - t.start_seconds), d.word_count + t.word_count,
            d.turns + 1, d.speaker_name⟩) :: rest
    else (k, d) :: updateData rest t

/-- The full `speaker_data` dict of a turn list. -/
def speakerData (turns : List SpeakerSegment) : List (String × SpeakerData) :=
  turns.foldl updateData []

/-- One `SpeakerMetrics` record (lines 435–444). -/
def mkMetrics (total : ℚ) (e : String × SpeakerData) : SpeakerMetrics :=
  { speaker_id := e.1
    speaker_name := e.2.speaker_name
    talk_time_seconds := round2 e.2.talk_time
    talk_time_pct := round1 (if 0 < total then e.2.talk_time / total * 100 else 0)
    word_count := e.2.word_count
    speaking_pace_wpm := round1 (if 0 < e.2.talk_time then e.2.word_count / e.2.talk_time * 60 else 0)
    turn_count := e.2.turns
    avg_turn_length_seconds := round2 (if 0 < e.2.turns then e.2.talk_time / e.2.turns else 0) }

/-- `compute_speaker_metrics` (lines 351–449): consolidated turns, metrics
sorted by talk time descending, and the total turn count. -/
def compute_speaker_metrics (segments : List TranscriptSegment) :
    List SpeakerMetrics × List SpeakerSegment × ℕ :=
  if segments = [] then ([], [], 0)
  else
    let turns := consolidate segments
    let data := speakerData turns
    let total_talk_time := (data.map (fun e => e.2.talk_time)).sum
    let total_turns := (data.map (fun e => e.2.turns)).sum
    let metrics := (data.map (mkMetrics total_talk_time)).mergeSort
      (fun a b => decide (b.talk_time_seconds ≤ a.talk_time_seconds))
    (metrics, turns, total_turns)

/-! ### Frame merge and downsampling (`merge_frames`, lines 542–557; the
downsampling step of `process_video`, lines 637–640) -/

/-- The greedy forward sweep of `merge_frames`: keep a candidate only if it is
at least `min_gap` later than the last kept one (`last_time` starts at
`-min_gap`). -/
def mergeLoop (min_gap : ℚ) : List (ℚ × String) → ℚ → List (ℚ × String)
  | [], _ => []
  | (t, f) :: rest, last =>
    if min_gap ≤ t - last then (t, f) :: mergeLoop min_gap rest t
    else mergeLoop min_gap rest last

/-- `merge_frames` (lines 542–557): sort the union of both candidate lists by
timestamp (`list.sort` is stable; `mergeSort` keyed on the timestamp models
it), then sweep. -/
def merge_frames (baseline scene_changes : List (ℚ × String)) (min_gap : ℚ := 2) :
    List (ℚ × String) :=
  mergeLoop min_gap
    ((baseline ++ scene_changes).mergeSort (fun a b => decide (a.1 ≤ b.1)))
    (-min_gap)

/-- The downsampling step of `process_video` (lines 637–640):
`step = len/target; [frames[int(i * step)] for i in range(target)]`.
The float expression `int(i * (len/target))` is modelled exactly as
`⌊i·len/target⌋`, which is natural-number division. -/
def downsample_frames (frames : List (ℚ × String)) (target : ℕ) : List (ℚ × String) :=
  if target < frames.length then
    (List.range target).map (fun i => frames.getD (i * frames.length / target) (0, ""))
  else frames

/-! ### Temporal aligner (`find_transcript_segment`, lines 560–583) -/

/-- The second loop of `find_transcript_segment`: running closest segment and
its distance (`min_diff` starts at `float('inf')`, modelled by `none`). -/
def closestAux (timestamp : ℚ) : List TranscriptSegment →
    Option (TranscriptSegment × ℚ) → Option (TranscriptSegment × ℚ)
  | [], acc => acc
  | s :: rest, acc =>
    let diff := |s.start_seconds - timestamp|
    let better : Bool :=
      match acc with
      | none => true
      | some (_, md) => decide (diff < md)
    closestAux timestamp rest (if better then some (s, diff) else acc)

/-- `find_transcript_segment` (lines 560–583). -/
def find_transcript_segment (timestamp : ℚ) (segments : List TranscriptSegment) :
    String × Option String × Option String :=
  match segments.find? (fun s =>
      decide (s.start_seconds ≤ timestamp) && decide (timestamp ≤ s.end_seconds)) with
  | some s => (s.text, s.speaker_id, s.speaker_name)
  | none =>
    match closestAux timestamp segments none with
    | some (s, md) =>
      if md < 10 then (s.text, s.speaker_id, s.speaker_name)
      else ("[No transcript available]", none, none)
    | none => ("[No transcript available]", none, none)

/-! ### A small backtracking regex engine

The line-level regexes of the three parsers are modelled by a tiny engine
with Python `re.match` semantics: anchored at the start, greedy (`*`, `+`)
and lazy (`*?`) repetition of character classes with full backtracking,
numbered capturing groups, and `$`.  Repetition bodies in the source's
patterns are always single character classes, which the engine hard-codes. -/

/-- Capture environment: group number ↦ captured characters. -/
abbrev Caps := List (ℕ × List Char)

/-- Regex abstract syntax (the fragment used by the source). -/
inductive RE where
  | eps : RE
  | lit : Char → RE
  | cls : (Char → Bool) → RE
  | starG : (Char → Bool) → RE
  | plusG : (Char → Bool) → RE
  | starL : (Char → Bool) → RE
  | grp : ℕ → RE → RE
  | seq : RE → RE → RE
  | eol : RE

/-- Greedy `p*`: try consuming `j` characters, longest first. -/
def tryG (k : List Char → Caps → Option Caps) (s : List Char) (caps : Caps) :
    ℕ → Option Caps
  | 0 => k s caps
  | j + 1 => (k (s.drop (j + 1)) caps).orElse (fun _ => tryG k s caps j)

/-- Greedy `p+`: like `tryG` but at least one character. -/
def tryP (k : List Char → Caps → Option Caps) (s : List Char) (caps : Caps) :
    ℕ → Option Caps
  | 0 => none
  | j + 1 => (k (s.drop (j + 1)) caps).orElse (fun _ => tryP k s caps j)

/-- Lazy `p*?`: try consuming `j` characters, shortest first (`f` counts the
remaining candidates). -/
def tryL (k : List Char → Caps → Option Caps) (s : List Char) (caps : Caps) :
    ℕ → ℕ → Option Caps
  | 0, j => k (s.drop j) caps
  | f + 1, j => (k (s.drop j) caps).orElse (fun _ => tryL k s caps f (j + 1))

/-- The matcher, in continuation style.  The continuation receives the
remaining input (always a suffix) and the captures. -/
def reM : RE → List Char → Caps → (List Char → Caps → Option Caps) → Option Caps
  | .eps, s, caps, k => k s caps
  | .lit c, s, caps, k =>
    match s with
    | x :: r => if x = c then k r caps else none
    | [] => none
  | .cls p, s, caps, k =>
    match s with
    | x :: r => if p x then k r caps else none
    | [] => none
  | .starG p, s, caps, k => tryG k s caps (s.takeWhile p).length
  | .plusG p, s, caps, k => tryP k s caps (s.takeWhile p).length
  | .starL p, s, caps, k => tryL k s caps (s.takeWhile p).length 0
  | .grp n r, s, caps, k =>
    reM r s caps (fun s' caps' => k s' ((n, s.take (s.length - s'.length)) :: caps'))
  | .seq a b, s, caps, k => reM a s caps (fun s' caps' => reM b s' caps' k)
  | .eol, s, caps, k =>
    match s with
    | [] => k [] caps
    | _ => none

/-- Sequence a list of regexes. -/
def reSeq (rs : List RE) : RE := rs.foldr RE.seq RE.eps

/-- `re.match`: anchored prefix search returning the captures on success. -/
def reMatch (r : RE) (s : List Char) : Option Caps :=
  reM r s [] (fun _ caps => some caps)

/-- Captured content of a group. -/
def capsGet (caps : Caps) (n : ℕ) : List Char := (caps.lookup n).getD []

/-! ### Character classes of the source's patterns -/

/-- `.` (no DOTALL). -/
def isAnyCh (c : Char) : Bool := c != '\n'

/-- `[\d:,.]`. -/
def isTsChar (c : Char) : Bool := isDigitC c || c = ':' || c = ',' || c = '.'

/-- `[A-Za-z]`. -/
def isAlphaAZ (c : Char) : Bool := ('A' ≤ c && c ≤ 'Z') || ('a' ≤ c && c ≤ 'z')

/-- `[\[\(]`. -/
def isOpenBr (c : Char) : Bool := c = '[' || c = '('

/-- `[\]\)]`. -/
def isCloseBr (c : Char) : Bool := c = ']' || c = ')'

/-! ### The line-level patterns -/

/-- `([\d:,.]+)\s*-->\s*([\d:,.]+)` (timestamp pair, lines 150 and 206). -/
def tsPairRe : RE := reSeq
  [.grp 1 (.plusG isTsChar), .starG isPySpace, .lit '-', .lit '-', .lit '>',
   .starG isPySpace, .grp 2 (.plusG isTsChar)]

/-- `<v\s+([^>]+)>(.*)` (line 113).  The trailing `(?:</v>)?` of the source
pattern is vacuous: the greedy `(.*)` always swallows `</v>` and the optional
group matches empty, so it is omitted. -/
def voiceRe : RE := reSeq
  [.lit '<', .lit 'v', .plusG isPySpace, .grp 1 (.plusG (fun c => c != '>')),
   .lit '>', .grp 2 (.starG isAnyCh)]

/-- `^([^:]+):\s*(.+)$` (lines 122 and 220). -/
def colonRe : RE := reSeq
  [.grp 1 (.plusG (fun c => c != ':')), .lit ':', .starG isPySpace,
   .grp 2 (.plusG isAnyCh), .eol]

/-- `^([A-Za-z][^[\]()]*?)\s*[\[\(]([\d:,.]+)[\]\)]:\s*(.+)$` (line 263). -/
def p1Re : RE := reSeq
  [.grp 1 (.seq (.cls isAlphaAZ) (.starL (fun c => !(isOpenBr c || isCloseBr c)))),
   .starG isPySpace, .cls isOpenBr, .grp 2 (.plusG isTsChar), .cls isCloseBr,
   .lit ':', .starG isPySpace, .grp 3 (.plusG isAnyCh), .eol]

/-- `^[\[\(]([\d:,.]+)[\]\)]\s*([A-Za-z][^:]*?):\s*(.+)$` (line 264). -/
def p2Re : RE := reSeq
  [.cls isOpenBr, .grp 1 (.plusG isTsChar), .cls isCloseBr, .starG isPySpace,
   .grp 2 (.seq (.cls isAlphaAZ) (.starL (fun c => c != ':'))), .lit ':',
   .starG isPySpace, .grp 3 (.plusG isAnyCh), .eol]

/-- `^[\[\(]([\d:,.]+)[\]\)]\s*(.+)$` (line 265). -/
def p3Re : RE := reSeq
  [.cls isOpenBr, .grp 1 (.plusG isTsChar), .cls isCloseBr, .starG isPySpace,
   .grp 2 (.plusG isAnyCh), .eol]

/-- `^([\d:,.]+)\s*[-:]\s*(.+)$` (line 266). -/
def p4Re : RE := reSeq
  [.grp 1 (.plusG isTsChar), .starG isPySpace, .cls (fun c => c = '-' || c = ':'),
   .starG isPySpace, .grp 2 (.plusG isAnyCh), .eol]

/-- `^([A-Za-z][^:]*?):\s*(.+)$` (line 291, the embedded-name check). -/
def embeddedRe : RE := reSeq
  [.grp 1 (.seq (.cls isAlphaAZ) (.starL (fun c => c != ':'))), .lit ':',
   .starG isPySpace, .grp 2 (.plusG isAnyCh), .eol]

/-! ### VTT parser (`parse_vtt`, lines 134–190) -/

/-- `extract_speaker_from_vtt_line` (lines 110–131). -/
def extract_speaker_from_vtt_line (line : List Char) : Option (List Char) × List Char :=
  match reMatch voiceRe line with
  | some caps =>
    (some (pyStrip (capsGet caps 1)), stripTags (pyStrip (capsGet caps 2)))
  | none =>
  match reMatch colonRe line with
  | some caps =>
    let ps := pyStrip (capsGet caps 1)
    if wordCount ps ≤ 4 ∧ ¬hasDigitC ps then (some ps, pyStrip (capsGet caps 2))
    else (none, stripTags line)
  | none => (none, stripTags line)

/-- `\d{2}:\d{2}` prefix test on a raw line (header skip, line 141). -/
def vttHeaderDD (l : List Char) : Bool :=
  match l with
  | a :: b :: c :: d₂ :: e :: _ =>
    isDigitC a && isDigitC b && c = ':' && isDigitC d₂ && isDigitC e
  | _ => false

/-- The inner text-collection loop of `parse_vtt` (lines 157–170): gather the
cleaned non-empty text lines and the first truthy speaker until a blank line
or the next timestamp line; also return how many lines were consumed. -/
def collectText : List (List Char) → List (List Char) × Option (List Char) × ℕ
  | [] => ([], none, 0)
  | line :: rest =>
    let t := pyStrip line
    if t = [] ∨ (reMatch tsPairRe t).isSome then ([], none, 0)
    else if (t ≠ [] ∧ t.all isDigitC) ∨ ['N', 'O', 'T', 'E'].isPrefixOf t then
      let r := collectText rest
      (r.1, r.2.1, r.2.2 + 1)
    else
      let e := extract_speaker_from_vtt_line t
      let r := collectText rest
      ((if e.2 ≠ [] then e.2 :: r.1 else r.1),
       (match e.1 with
        | some s => if s ≠ [] then some s else r.2.1
        | none => r.2.1),
       r.2.2 + 1)

/-- Fuel-driven main loop of `parse_vtt` (lines 146–188), threading the
`speaker_counter` dict.  Every recursive call is on a suffix of `rest`, so
fuel `lines.length + 1` suffices. -/
def vttLoopF : ℕ → List (String × String) → List (List Char) → List TranscriptSegment
  | 0, _, _ => []
  | f + 1, counter, lines =>
    match lines with
    | [] => []
    | line :: rest =>
      let t := pyStrip line
      match reMatch tsPairRe t with
      | some caps =>
        let st := parse_timestamp ⟨capsGet caps 1⟩
        let en := parse_timestamp ⟨capsGet caps 2⟩
        let r := collectText rest
        let rem := rest.drop r.2.2
        if r.1 ≠ [] then
          match r.2.1 with
          | some sp =>
            if sp ≠ [] then
              let counter' := update_speaker_counter counter ⟨sp⟩
              ⟨st, en, ⟨joinSp r.1⟩, counter'.lookup ⟨sp⟩, some ⟨sp⟩⟩ :: vttLoopF f counter' rem
            else ⟨st, en, ⟨joinSp r.1⟩, none, some ⟨sp⟩⟩ :: vttLoopF f counter rem
          | none => ⟨st, en, ⟨joinSp r.1⟩, none, none⟩ :: vttLoopF f counter rem
        else vttLoopF f counter rem
      | none => vttLoopF f counter rest

/-- The main loop of `parse_vtt` with enough fuel for its line list. -/
def vttLoop (counter : List (String × String)) (lines : List (List Char)) :
    List TranscriptSegment :=
  vttLoopF (lines.length + 1) counter lines

/-- `parse_vtt` (lines 134–190). -/
def parse_vtt (content : String) : List TranscriptSegment :=
  let lines := splitNl (pyStrip content.data)
  vttLoop [] (lines.dropWhile (fun l => !vttHeaderDD l))

/-! ### SRT parser (`parse_srt`, lines 193–248) -/

/-- Index of the last `'\n'` in a character list, if any. -/
def lastNlIdx : List Char → Option ℕ
  | [] => none
  | c :: t =>
    match lastNlIdx t with
    | some i => some (i + 1)
    | none => if c = '\n' then some 0 else none

/-- Fuel-driven worker for `splitBlocks`; fuel `length + 1` suffices. -/
def splitBlocksF : ℕ → List Char → List Char → List (List Char)
  | 0, acc, cs => [acc ++ cs]
  | _ + 1, acc, [] => [acc]
  | f + 1, acc, '\n' :: t =>
    (match lastNlIdx (t.takeWhile isPySpace) with
     | some i => acc :: splitBlocksF f [] (t.drop (i + 1))
     | none => splitBlocksF f (acc ++ ['\n']) t)
  | f + 1, acc, c :: t => splitBlocksF f (acc ++ [c]) t

/-- Model of `re.split(r'\n\s*\n', s)` (line 196): a separator starts at a
newline and extends, greedily through whitespace, to the last newline of the
whitespace run. -/
def splitBlocks (cs : List Char) : List (List Char) := splitBlocksF (cs.length + 1) [] cs

/-- Find the first timestamp-arrow line of a block (lines 205–206, on the raw
lines) and return its captures and the lines after it. -/
def srtFindTs : List (List Char) → Option (Caps × List (List Char))
  | [] => none
  | l :: rest =>
    match reMatch tsPairRe l with
    | some caps => some (caps, rest)
    | none => srtFindTs rest

/-- Per-line cleaning of `parse_srt` (lines 215–228): strip tags, then the
`"Speaker: text"` heuristic (≤ 4 tokens and no digit). -/
def srtCleanLine (l : List Char) : Option (List Char) × List Char :=
  let tl := stripTags l
  match reMatch colonRe tl with
  | some caps =>
    let ps := pyStrip (capsGet caps 1)
    if wordCount ps ≤ 4 ∧ ¬hasDigitC ps then (some ps, pyStrip (capsGet caps 2))
    else (none, tl)
  | none => (none, tl)

/-- The text-line fold of `parse_srt` (lines 213–228): thread
`segment_speaker` (assigned only while the current value is falsy) and
collect the cleaned lines in order. -/
def srtScan (st : Option (List Char)) : List (List Char) → Option (List Char) × List (List Char)
  | [] => (st, [])
  | l :: rest =>
    let e := srtCleanLine l
    let st' :=
      match e.1 with
      | some ps =>
        match st with
        | none => some ps
        | some cur => if cur = [] then some ps else some cur
      | none => st
    let r := srtScan st' rest
    (r.1, e.2 :: r.2)

/-- The block loop of `parse_srt` (lines 199–246).  Note: the segment is
appended unconditionally — there is no emptiness check on `text`. -/
def srtBlocks (counter : List (String × String)) : List (List Char) → List TranscriptSegment
  | [] => []
  | b :: rest =>
    let lines := splitNl (pyStrip b)
    if lines.length < 2 then srtBlocks counter rest
    else
      match srtFindTs lines with
      | none => srtBlocks counter rest
      | some (caps, textLines) =>
        let st := parse_timestamp ⟨capsGet caps 1⟩
        let en := parse_timestamp ⟨capsGet caps 2⟩
        let r := srtScan none textLines
        let text : String := ⟨pyStrip (joinSp r.2)⟩
        match r.1 with
        | some s =>
          if s ≠ [] then
            let counter' := update_speaker_counter counter ⟨s⟩
            ⟨st, en, text, counter'.lookup ⟨s⟩, some ⟨s⟩⟩ :: srtBlocks counter' rest
          else ⟨st, en, text, none, some ⟨s⟩⟩ :: srtBlocks counter rest
        | none => ⟨st, en, text, none, none⟩ :: srtBlocks counter rest

/-- `parse_srt` (lines 193–248). -/
def parse_srt (content : String) : List TranscriptSegment :=
  srtBlocks [] (splitBlocks (pyStrip content.data))

/-! ### Plain-text parser (`parse_plain_text`, lines 251–327) -/

/-- The embedded-name check of patterns 3/4 (lines 290–300): only the token
count is tested — there is no digit test here. -/
def embeddedSpeaker (t : List Char) : Option (List Char) × List Char :=
  match reMatch embeddedRe t with
  | some ec =>
    let ps := pyStrip (capsGet ec 1)
    if wordCount ps ≤ 4 then (some ps, pyStrip (capsGet ec 2)) else (none, t)
  | none => (none, t)

/-- Try the four line patterns in fixed priority (lines 262–303), returning
`(start_seconds, text, speaker)` for the first match. -/
def tryPatterns (line : List Char) : Option (ℚ × List Char × Option (List Char)) :=
  match reMatch p1Re line with
  | some caps =>
    some (parse_timestamp ⟨capsGet caps 2⟩, pyStrip (capsGet caps 3),
      some (pyStrip (capsGet caps 1)))
  | none =>
  match reMatch p2Re line with
  | some caps =>
    some (parse_timestamp ⟨capsGet caps 1⟩, pyStrip (capsGet caps 3),
      some (pyStrip (capsGet caps 2)))
  | none =>
  match reMatch p3Re line with
  | some caps =>
    let e := embeddedSpeaker (pyStrip (capsGet caps 2))
    some (parse_timestamp ⟨capsGet caps 1⟩, e.2, e.1)
  | none =>
  match reMatch p4Re line with
  | some caps =>
    let e := embeddedSpeaker (pyStrip (capsGet caps 2))
    some (parse_timestamp ⟨capsGet caps 1⟩, e.2, e.1)
  | none => none

/-- The parsed `(ts, text, speaker)` items of the content (lines 269–303):
strip each line, skip empty lines and lines matching no pattern. -/
def plainItems (content : String) : List (ℚ × List Char × Option (List Char)) :=
  (splitNl (pyStrip content.data)).filterMap
    (fun l => let t := pyStrip l; if t = [] then none else tryPatterns t)

/-- Convert items to segments (lines 305–325): `end` is the next item's
start, or `start + 10` for the last item; thread the speaker counter. -/
def plainToSegments (counter : List (String × String)) :
    List (ℚ × List Char × Option (List Char)) → List TranscriptSegment
  | [] => []
  | (ts, text, sp) :: rest =>
    let en : ℚ :=
      match rest with
      | (t₂, _, _) :: _ => t₂
      | [] => ts + 10
    match sp with
    | some s =>
      if s ≠ [] then
        let counter' := update_speaker_counter counter ⟨s⟩
        ⟨ts, en, ⟨text⟩, counter'.lookup ⟨s⟩, some ⟨s⟩⟩ :: plainToSegments counter' rest
      else ⟨ts, en, ⟨text⟩, none, some ⟨s⟩⟩ :: plainToSegments counter rest
    | none => ⟨ts, en, ⟨text⟩, none, none⟩ :: plainToSegments counter rest

/-- `parse_plain_text` (lines 251–327). -/
def parse_plain_text (content : String) : List TranscriptSegment :=
  plainToSegments [] (plainItems content)

/-! ### Spec-side notation shapes

The following predicates are written from the specification's words ("H is
one or two digits, MM and SS two digits, mmm three digits, matched against
the prefix of the trimmed string"), independently of the matchers above, and
are proved equivalent to them. -/

/-- A non-empty run of ASCII digits. -/
def DigitRun (l : List Char) : Prop := l ≠ [] ∧ ∀ c ∈ l, isDigitC c = true

instance (l : List Char) : Decidable (DigitRun l) := by
  unfold DigitRun; infer_instance

/-- Spec notation `H:MM:SS[.,]mmm` with explicit remainder `rest`. -/
def NotationHMSmsR (cs : List Char) (h m s ms : ℕ) (rest : List Char) : Prop :=
  ∃ H M S MS sep, cs = H ++ ':' :: M ++ ':' :: S ++ sep :: MS ++ rest ∧
    DigitRun H ∧ H.length ≤ 2 ∧ DigitRun M ∧ M.length = 2 ∧
    DigitRun S ∧ S.length = 2 ∧ (sep = ',' ∨ sep = '.') ∧
    DigitRun MS ∧ MS.length = 3 ∧
    h = digitsVal H ∧ m = digitsVal M ∧ s = digitsVal S ∧ ms = digitsVal MS

/-- Spec notation `H:MM:SS[.,]mmm` matched against a prefix. -/
def NotationHMSms (cs : List Char) (h m s ms : ℕ) : Prop :=
  ∃ rest, NotationHMSmsR cs h m s ms rest

/-- Spec notation `H:MM:SS` with explicit remainder. -/
def NotationHMSR (cs : List Char) (h m s : ℕ) (rest : List Char) : Prop :=
  ∃ H M S, cs = H ++ ':' :: M ++ ':' :: S ++ rest ∧
    DigitRun H ∧ H.length ≤ 2 ∧ DigitRun M ∧ M.length = 2 ∧
    DigitRun S ∧ S.length = 2 ∧
    h = digitsVal H ∧ m = digitsVal M ∧ s = digitsVal S

/-- Spec notation `H:MM:SS` matched against a prefix. -/
def NotationHMS (cs : List Char) (h m s : ℕ) : Prop :=
  ∃ rest, NotationHMSR cs h m s rest

/-- Spec notation `M:SS[.,]mmm` with explicit remainder. -/
def NotationMSmsR (cs : List Char) (m s ms : ℕ) (rest : List Char) : Prop :=
  ∃ M S MS sep, cs = M ++ ':' :: S ++ sep :: MS ++ rest ∧
    DigitRun M ∧ M.length ≤ 2 ∧ DigitRun S ∧ S.length = 2 ∧
    (sep = ',' ∨ sep = '.') ∧ DigitRun MS ∧ MS.length = 3 ∧
    m = digitsVal M ∧ s = digitsVal S ∧ ms = digitsVal MS

/-- Spec notation `M:SS[.,]mmm` matched against a prefix. -/
def NotationMSms (cs : List Char) (m s ms : ℕ) : Prop :=
  ∃ rest, NotationMSmsR cs m s ms rest

/-- Spec notation `M:SS` with explicit remainder. -/
def NotationMSR (cs : List Char) (m s : ℕ) (rest : List Char) : Prop :=
  ∃ M S, cs = M ++ ':' :: S ++ rest ∧
    DigitRun M ∧ M.length ≤ 2 ∧ DigitRun S ∧ S.length = 2 ∧
    m = digitsVal M ∧ s = digitsVal S

/-- Spec notation `M:SS` matched against a prefix. -/
def NotationMS (cs : List Char) (m s : ℕ) : Prop :=
  ∃ rest, NotationMSR cs m s rest

/-- Spec shape of the exponent suffix of a bare number with its scale
factor. -/
def ExpShape (ec : List Char) (ex : ℚ) : Prop :=
  (ec = [] ∧ ex = 1) ∨
  ∃ e sc ed, (e = 'e' ∨ e = 'E') ∧ ec = e :: (sc ++ ed) ∧ DigitRun ed ∧
    ((sc = [] ∧ ex = 10 ^ digitsVal ed) ∨ (sc = ['+'] ∧ ex = 10 ^ digitsVal ed) ∨
     (sc = ['-'] ∧ ex = 1 / 10 ^ digitsVal ed))

/-- Spec shape of the unsigned part of a bare number: integer digits, an
optional `.` fraction, an optional exponent, with its value. -/
def MantShape (cs₁ : List Char) (v : ℚ) : Prop :=
  ∃ (ip dp fp ec : List Char) (ex : ℚ),
    cs₁ = ip ++ dp ++ fp ++ ec ∧
    (∀ c ∈ ip, isDigitC c = true) ∧ (∀ c ∈ fp, isDigitC c = true) ∧
    ((dp = [] ∧ fp = []) ∨ dp = ['.']) ∧
    ip ++ fp ≠ [] ∧ ExpShape ec ex ∧
    v = ((digitsVal ip : ℚ) + digitsVal fp / 10 ^ fp.length) * ex

/-- Spec shape of a bare number (finite decimal literal) with its value:
an optional sign followed by an unsigned decimal. -/
def NumberShape (cs : List Char) (q : ℚ) : Prop :=
  ∃ (sc : List Char) (sgn : ℚ) (rest : List Char) (v : ℚ),
    cs = sc ++ rest ∧
    ((sc = [] ∧ sgn = 1) ∨ (sc = ['+'] ∧ sgn = 1) ∨ (sc = ['-'] ∧ sgn = -1)) ∧
    MantShape rest v ∧ q = sgn * v

/-- No colon notation matches the prefix of `cs`. -/
def NoColonNotation (cs : List Char) : Prop :=
  (¬∃ h m s ms, NotationHMSms cs h m s ms) ∧ (¬∃ h m s, NotationHMS cs h m s) ∧
  (¬∃ m s ms, NotationMSms cs m s ms) ∧ (¬∃ m s, NotationMS cs m s)

/-- The canonical zero-padded `HH:MM:SS` rendering of an hour/minute/second
triple (the "HH:MM:SS portion" of a timestamp string). -/
def renderHMS (h m s : ℕ) : String :=
  ⟨padZero2 (h : ℤ) ++ ':' :: padZero2 (m : ℤ) ++ ':' :: padZero2 (s : ℤ)⟩

/-- The distinct labels of a pass, in order of first occurrence (spec-side
companion of the `speaker_counter` key order). -/
def firstSeen (ls : List String) : List String :=
  ls.foldl (fun acc l => if l ∈ acc then acc else acc ++ [l]) []

/-- Index of the first occurrence of a label in a list. -/
def idxOfStr : List String → String → ℕ
  | [], _ => 0
  | x :: xs, l => if x = l then 0 else idxOfStr xs l + 1

/-- The counter dict that tags the `k`-th listed label (counting from `n`)
with `speaker_{n+k+1}` (spec-side companion of the `speaker_counter` state). -/
def taggedFrom : ℕ → List String → List (String × String)
  | _, [] => []
  | n, x :: xs => (x, speakerTag (n + 1)) :: taggedFrom (n + 1) xs

/-! ## Theorems -/

/-! ### Generic helper lemmas -/

theorem head_dropWhile {p : Char → Bool} {l : List Char} {c : Char}
    (h : (l.dropWhile p).head? = some c) : p c = false := by
  induction l with
  | nil => simp at h
  | cons a t ih =>
    rw [List.dropWhile_cons] at h
    by_cases hp : p a
    · exact ih (by simpa [hp] using h)
    · rw [if_neg hp] at h
      simp only [List.head?_cons, Option.some.injEq] at h
      rw [← h]
      simpa using hp

theorem takeWhile_unique {p : Char → Bool} {ds rest : List Char}
    (h1 : ∀ c ∈ ds, p c = true) (h2 : ∀ c, rest.head? = some c → p c = false) :
    (ds ++ rest).takeWhile p = ds ∧ (ds ++ rest).dropWhile p = rest := by
  induction ds with
  | nil =>
    simp only [List.nil_append]
    cases rest with
    | nil => simp
    | cons c t =>
      have := h2 c rfl
      simp [List.takeWhile_cons, List.dropWhile_cons, this]
  | cons d ds ih =>
    have hd : p d = true := h1 d (by simp)
    have hr := ih (fun c hc => h1 c (by simp [hc]))
    simp [List.takeWhile_cons, List.dropWhile_cons, hd, hr.1, hr.2]

/-! ### Decimal rendering facts -/

theorem digitsVal_append_singleton (cs : List Char) (c : Char) :
    digitsVal (cs ++ [c]) = 10 * digitsVal cs + dVal c := by
  simp [digitsVal, List.foldl_append]

theorem dVal_digitCh {n : ℕ} (h : n < 10) : dVal (digitCh n) = n := by
  interval_cases n <;> rfl

theorem natReprAux_val {f n : ℕ} (h : n < f) : digitsVal (natReprAux f n) = n := by
  induction f generalizing n with
  | zero => omega
  | succ f ih =>
    rw [natReprAux]
    by_cases h10 : n < 10
    · simp [h10, digitsVal, dVal_digitCh h10]
    · have hn : 0 < n := by omega
      have hdl : n / 10 < n := Nat.div_lt_self hn (by norm_num)
      have hdiv : n / 10 < f := by omega
      rw [if_neg h10, digitsVal_append_singleton, ih hdiv,
        dVal_digitCh (Nat.mod_lt _ (by norm_num))]
      omega

theorem digitsVal_natRepr (n : ℕ) : digitsVal (natRepr n) = n :=
  natReprAux_val (Nat.lt_succ_self n)

theorem natRepr_injective {m n : ℕ} (h : natRepr m = natRepr n) : m = n := by
  have hm := digitsVal_natRepr m
  rw [h, digitsVal_natRepr] at hm
  exact hm.symm

theorem speakerTag_injective {m n : ℕ} (h : speakerTag m = speakerTag n) : m = n := by
  unfold speakerTag at h
  have hd : ['s','p','e','a','k','e','r','_'] ++ natRepr m
      = ['s','p','e','a','k','e','r','_'] ++ natRepr n := congrArg String.data h
  exact natRepr_injective (by simpa using hd)

/-! ### Timestamp matcher inversion lemmas -/

theorem readDigit_eq_some {cs : List Char} {n : ℕ} {r : List Char} :
    readDigit cs = some (n, r) ↔ ∃ c, cs = c :: r ∧ isDigitC c = true ∧ n = dVal c := by
  cases cs with
  | nil => simp [readDigit]
  | cons c t =>
    by_cases h : isDigitC c
    · simp only [readDigit, if_pos h, Option.some.injEq, Prod.mk.injEq, List.cons.injEq]
      constructor
      · rintro ⟨hn, ht⟩
        exact ⟨c, ⟨rfl, ht⟩, h, hn.symm⟩
      · rintro ⟨c', ⟨hc, ht⟩, _, hn⟩
        subst hc; subst ht; exact ⟨hn.symm, rfl⟩
    · simp only [readDigit, if_neg h]
      constructor
      · intro hx; cases hx
      · rintro ⟨c', hceq, hd, _⟩
        injection hceq with h1 h2
        subst h1; exact absurd hd h

theorem read2_eq_some {cs : List Char} {n : ℕ} {r : List Char} :
    read2 cs = some (n, r) ↔
      ∃ a b, cs = a :: b :: r ∧ isDigitC a = true ∧ isDigitC b = true ∧
        n = 10 * dVal a + dVal b := by
  simp only [read2, Option.bind_eq_some, Option.map_eq_some']
  constructor
  · rintro ⟨⟨a, r₁⟩, ha, ⟨b, r₂⟩, hb, heq⟩
    obtain ⟨c, rfl, hdc, rfl⟩ := readDigit_eq_some.mp ha
    obtain ⟨c₂, rfl, hdc₂, rfl⟩ := readDigit_eq_some.mp hb
    injection heq with h1 h2
    subst h1; subst h2
    exact ⟨c, c₂, rfl, hdc, hdc₂, rfl⟩
  · rintro ⟨a, b, rfl, ha, hb, rfl⟩
    exact ⟨(dVal a, b :: r), readDigit_eq_some.mpr ⟨a, rfl, ha, rfl⟩,
      (dVal b, r), readDigit_eq_some.mpr ⟨b, rfl, hb, rfl⟩, rfl⟩

theorem read3_eq_some {cs : List Char} {n : ℕ} {r : List Char} :
    read3 cs = some (n, r) ↔
      ∃ a b c, cs = a :: b :: c :: r ∧ isDigitC a = true ∧ isDigitC b = true ∧
        isDigitC c = true ∧ n = 100 * dVal a + 10 * dVal b + dVal c := by
  simp only [read3, Option.bind_eq_some, Option.map_eq_some']
  constructor
  · rintro ⟨⟨a, r₁⟩, ha, ⟨b, r₂⟩, hb, heq⟩
    obtain ⟨c, rfl, hdc, rfl⟩ := readDigit_eq_some.mp ha
    obtain ⟨c₂, c₃, rfl, hdc₂, hdc₃, rfl⟩ := read2_eq_some.mp hb
    injection heq with h1 h2
    subst h1; subst h2
    exact ⟨c, c₂, c₃, rfl, hdc, hdc₂, hdc₃, by ring⟩
  · rintro ⟨a, b, c, rfl, ha, hb, hc, rfl⟩
    exact ⟨(dVal a, b :: c :: r), readDigit_eq_some.mpr ⟨a, rfl, ha, rfl⟩,
      (10 * dVal b + dVal c, r), read2_eq_some.mpr ⟨b, c, rfl, hb, hc, rfl⟩, by ring_nf⟩

theorem readCh_eq_some {x : Char} {cs r : List Char} :
    readCh x cs = some r ↔ cs = x :: r := by
  cases cs with
  | nil => simp [readCh]
  | cons c t =>
    by_cases h : c = x
    · subst h; simp [readCh]
    · simp [readCh, h, Ne.symm h]

theorem readSep_eq_some {cs r : List Char} :
    readSep cs = some r ↔ ∃ p, cs = p :: r ∧ (p = ',' ∨ p = '.') := by
  cases cs with
  | nil => simp [readSep]
  | cons c t =>
    by_cases h : c = ',' ∨ c = '.'
    · simp only [readSep, if_pos h, Option.some.injEq]
      constructor
      · intro ht; exact ⟨c, by rw [ht], h⟩
      · rintro ⟨p, hp, _⟩
        injection hp
    · simp only [readSep, if_neg h]
      constructor
      · intro hx; cases hx
      · rintro ⟨p, hp, hsep⟩
        injection hp with h1 h2
        subst h1; exact absurd hsep h

theorem digitsVal_one (a : Char) : digitsVal [a] = dVal a := by
  simp [digitsVal]

theorem digitsVal_two (a b : Char) : digitsVal [a, b] = 10 * dVal a + dVal b := by
  simp [digitsVal, List.foldl]

theorem digitsVal_three (a b c : Char) :
    digitsVal [a, b, c] = 100 * dVal a + 10 * dVal b + dVal c := by
  simp [digitsVal, List.foldl]; ring

theorem tailMMSSms_eq_some {cs : List Char} {m s ms : ℕ} :
    tailMMSSms cs = some (m, s, ms) ↔
      ∃ m₁ m₂ s₁ s₂ p a b c rest,
        cs = ':' :: m₁ :: m₂ :: ':' :: s₁ :: s₂ :: p :: a :: b :: c :: rest ∧
        isDigitC m₁ = true ∧ isDigitC m₂ = true ∧ isDigitC s₁ = true ∧ isDigitC s₂ = true ∧
        (p = ',' ∨ p = '.') ∧ isDigitC a = true ∧ isDigitC b = true ∧ isDigitC c = true ∧
        m = 10 * dVal m₁ + dVal m₂ ∧ s = 10 * dVal s₁ + dVal s₂ ∧
        ms = 100 * dVal a + 10 * dVal b + dVal c := by
  simp only [tailMMSSms, Option.bind_eq_some, Option.map_eq_some']
  constructor
  · rintro ⟨cs₁, h1, ⟨mv, r2⟩, h2, cs₃, h3, ⟨sv, r4⟩, h4, cs₅, h5, ⟨msv, r6⟩, h6, heq⟩
    rw [readCh_eq_some] at h1
    obtain ⟨m₁, m₂, hr2, hm₁, hm₂, rfl⟩ := read2_eq_some.mp h2
    rw [readCh_eq_some] at h3
    obtain ⟨s₁, s₂, hr4, hs₁, hs₂, rfl⟩ := read2_eq_some.mp h4
    obtain ⟨p, hp5, hpsep⟩ := readSep_eq_some.mp h5
    obtain ⟨a, b, c, hr6, hA, hB, hC, rfl⟩ := read3_eq_some.mp h6
    injection heq with e1 e2
    injection e2 with e2 e3
    subst e1; subst e2; subst e3
    refine ⟨m₁, m₂, s₁, s₂, p, a, b, c, r6, ?_, hm₁, hm₂, hs₁, hs₂, hpsep, hA, hB, hC,
      rfl, rfl, rfl⟩
    dsimp only at h3 hp5
    rw [h1, hr2, h3, hr4, hp5, hr6]
  · rintro ⟨m₁, m₂, s₁, s₂, p, a, b, c, rest, rfl, hm₁, hm₂, hs₁, hs₂, hpsep, hA, hB, hC,
      rfl, rfl, rfl⟩
    exact ⟨_, readCh_eq_some.mpr rfl,
      (10 * dVal m₁ + dVal m₂, _), read2_eq_some.mpr ⟨m₁, m₂, rfl, hm₁, hm₂, rfl⟩,
      _, readCh_eq_some.mpr rfl,
      (10 * dVal s₁ + dVal s₂, _), read2_eq_some.mpr ⟨s₁, s₂, rfl, hs₁, hs₂, rfl⟩,
      _, readSep_eq_some.mpr ⟨p, rfl, hpsep⟩,
      (100 * dVal a + 10 * dVal b + dVal c, _),
        read3_eq_some.mpr ⟨a, b, c, rfl, hA, hB, hC, rfl⟩, rfl⟩

theorem tailMMSS_eq_some {cs : List Char} {m s : ℕ} :
    tailMMSS cs = some (m, s) ↔
      ∃ m₁ m₂ s₁ s₂ rest,
        cs = ':' :: m₁ :: m₂ :: ':' :: s₁ :: s₂ :: rest ∧
        isDigitC m₁ = true ∧ isDigitC m₂ = true ∧ isDigitC s₁ = true ∧ isDigitC s₂ = true ∧
        m = 10 * dVal m₁ + dVal m₂ ∧ s = 10 * dVal s₁ + dVal s₂ := by
  simp only [tailMMSS, Option.bind_eq_some, Option.map_eq_some']
  constructor
  · rintro ⟨cs₁, h1, ⟨mv, r2⟩, h2, cs₃, h3, ⟨sv, r4⟩, h4, heq⟩
    rw [readCh_eq_some] at h1
    obtain ⟨m₁, m₂, hr2, hm₁, hm₂, rfl⟩ := read2_eq_some.mp h2
    rw [readCh_eq_some] at h3
    obtain ⟨s₁, s₂, hr4, hs₁, hs₂, rfl⟩ := read2_eq_some.mp h4
    injection heq with e1 e2
    subst e1; subst e2
    refine ⟨m₁, m₂, s₁, s₂, r4, ?_, hm₁, hm₂, hs₁, hs₂, rfl, rfl⟩
    dsimp only at h3
    rw [h1, hr2, h3, hr4]
  · rintro ⟨m₁, m₂, s₁, s₂, rest, rfl, hm₁, hm₂, hs₁, hs₂, rfl, rfl⟩
    exact ⟨_, readCh_eq_some.mpr rfl,
      (10 * dVal m₁ + dVal m₂, _), read2_eq_some.mpr ⟨m₁, m₂, rfl, hm₁, hm₂, rfl⟩,
      _, readCh_eq_some.mpr rfl,
      (10 * dVal s₁ + dVal s₂, _), read2_eq_some.mpr ⟨s₁, s₂, rfl, hs₁, hs₂, rfl⟩, rfl⟩

theorem tailSSms_eq_some {cs : List Char} {s ms : ℕ} :
    tailSSms cs = some (s, ms) ↔
      ∃ s₁ s₂ p a b c rest,
        cs = ':' :: s₁ :: s₂ :: p :: a :: b :: c :: rest ∧
        isDigitC s₁ = true ∧ isDigitC s₂ = true ∧ (p = ',' ∨ p = '.') ∧
        isDigitC a = true ∧ isDigitC b = true ∧ isDigitC c = true ∧
        s = 10 * dVal s₁ + dVal s₂ ∧ ms = 100 * dVal a + 10 * dVal b + dVal c := by
  simp only [tailSSms, Option.bind_eq_some, Option.map_eq_some']
  constructor
  · rintro ⟨cs₁, h1, ⟨sv, r2⟩, h2, cs₃, h3, ⟨msv, r4⟩, h4, heq⟩
    rw [readCh_eq_some] at h1
    obtain ⟨s₁, s₂, hr2, hs₁, hs₂, rfl⟩ := read2_eq_some.mp h2
    obtain ⟨p, hp3, hpsep⟩ := readSep_eq_some.mp h3
    obtain ⟨a, b, c, hr4, hA, hB, hC, rfl⟩ := read3_eq_some.mp h4
    injection heq with e1 e2
    subst e1; subst e2
    refine ⟨s₁, s₂, p, a, b, c, r4, ?_, hs₁, hs₂, hpsep, hA, hB, hC, rfl, rfl⟩
    dsimp only at hp3
    rw [h1, hr2, hp3, hr4]
  · rintro ⟨s₁, s₂, p, a, b, c, rest, rfl, hs₁, hs₂, hpsep, hA, hB, hC, rfl, rfl⟩
    exact ⟨_, readCh_eq_some.mpr rfl,
      (10 * dVal s₁ + dVal s₂, _), read2_eq_some.mpr ⟨s₁, s₂, rfl, hs₁, hs₂, rfl⟩,
      _, readSep_eq_some.mpr ⟨p, rfl, hpsep⟩,
      (100 * dVal a + 10 * dVal b + dVal c, _),
        read3_eq_some.mpr ⟨a, b, c, rfl, hA, hB, hC, rfl⟩, rfl⟩

theorem tailSS_eq_some {cs : List Char} {s : ℕ} :
    tailSS cs = some s ↔
      ∃ s₁ s₂ rest, cs = ':' :: s₁ :: s₂ :: rest ∧
        isDigitC s₁ = true ∧ isDigitC s₂ = true ∧ s = 10 * dVal s₁ + dVal s₂ := by
  simp only [tailSS, Option.bind_eq_some, Option.map_eq_some']
  constructor
  · rintro ⟨cs₁, h1, ⟨sv, r2⟩, h2, heq⟩
    rw [readCh_eq_some] at h1
    obtain ⟨s₁, s₂, hr2, hs₁, hs₂, rfl⟩ := read2_eq_some.mp h2
    subst heq
    refine ⟨s₁, s₂, r2, ?_, hs₁, hs₂, rfl⟩
    rw [h1, hr2]
  · rintro ⟨s₁, s₂, rest, rfl, hs₁, hs₂, rfl⟩
    exact ⟨_, readCh_eq_some.mpr rfl,
      (10 * dVal s₁ + dVal s₂, _), read2_eq_some.mpr ⟨s₁, s₂, rfl, hs₁, hs₂, rfl⟩, rfl⟩

theorem orElse_eq_some_iff {β : Type} (x : Option β) (y : Unit → Option β) (z : β) :
    x.orElse y = some z ↔ x = some z ∨ (x = none ∧ y () = some z) := by
  cases x <;> simp [Option.orElse]

theorem match12_eq_some {α β : Type} {tail : List Char → Option α} {f : ℕ → α → β}
    {cs : List Char} {b : β}
    (hcolon : ∀ cs a, tail cs = some a → ∃ r, cs = ':' :: r) :
    match12 tail f cs = some b ↔
      (∃ c c₂ r₂ a, cs = c :: c₂ :: r₂ ∧ isDigitC c = true ∧ isDigitC c₂ = true ∧
        tail r₂ = some a ∧ b = f (10 * dVal c + dVal c₂) a) ∨
      (∃ c r a, cs = c :: r ∧ isDigitC c = true ∧ tail r = some a ∧ b = f (dVal c) a) := by
  cases cs with
  | nil =>
    simp only [match12]
    constructor
    · intro hx; cases hx
    · rintro (⟨c, c₂, r₂, a, hceq, -, -, -, -⟩ | ⟨c, r, a, hceq, -, -, -⟩) <;> cases hceq
  | cons c rest =>
    by_cases hd : isDigitC c
    · simp only [match12]
      rw [if_pos hd, orElse_eq_some_iff]
      constructor
      · rintro (h2 | ⟨h2none, h1⟩)
        · cases rest with
          | nil => dsimp only at h2; cases h2
          | cons c₂ r₂ =>
            dsimp only at h2
            by_cases hd₂ : isDigitC c₂
            · rw [if_pos hd₂, Option.map_eq_some'] at h2
              obtain ⟨a, ha, hb⟩ := h2
              exact Or.inl ⟨c, c₂, r₂, a, rfl, hd, hd₂, ha, hb.symm⟩
            · rw [if_neg hd₂] at h2; cases h2
        · rw [Option.map_eq_some'] at h1
          obtain ⟨a, ha, hb⟩ := h1
          exact Or.inr ⟨c, rest, a, rfl, hd, ha, hb.symm⟩
      · rintro (⟨c', c₂, r₂, a, hceq, hd', hd₂, ha, hb⟩ | ⟨c', r, a, hceq, hd', ha, hb⟩)
        · injection hceq with e1 e2
          subst e1; subst e2
          exact Or.inl (by dsimp only; rw [if_pos hd₂, Option.map_eq_some']; exact ⟨_, ha, hb.symm⟩)
        · injection hceq with e1 e2
          subst e1; subst e2
          obtain ⟨r', hr'⟩ := hcolon _ _ ha
          refine Or.inr ⟨?_, by rw [Option.map_eq_some']; exact ⟨_, ha, hb.symm⟩⟩
          subst hr'
          have : isDigitC ':' = false := by decide
          cases r' <;> simp [this]
    · simp only [match12]
      rw [if_neg hd]
      constructor
      · intro hx; cases hx
      · rintro (⟨c', c₂, r₂, a, hceq, hd', -, -, -⟩ | ⟨c', r, a, hceq, hd', -, -⟩) <;>
          (injection hceq with e1 e2; subst e1; exact absurd hd' hd)

theorem digitRun_one {a : Char} (ha : isDigitC a = true) : DigitRun [a] :=
  ⟨by simp, by intro c hc; simp at hc; subst hc; exact ha⟩

theorem digitRun_two {a b : Char} (ha : isDigitC a = true) (hb : isDigitC b = true) :
    DigitRun [a, b] := by
  refine ⟨by simp, ?_⟩
  intro c hc
  rcases List.mem_pair.mp hc with rfl | rfl
  · exact ha
  · exact hb

theorem digitRun_three {a b c : Char} (ha : isDigitC a = true) (hb : isDigitC b = true)
    (hc : isDigitC c = true) : DigitRun [a, b, c] := by
  refine ⟨by simp, ?_⟩
  intro x hx
  simp only [List.mem_cons, List.not_mem_nil, or_false] at hx
  rcases hx with rfl | rfl | rfl
  · exact ha
  · exact hb
  · exact hc

theorem tailMMSSms_colon : ∀ cs a, tailMMSSms cs = some a → ∃ r, cs = ':' :: r := by
  rintro cs ⟨m, s, ms⟩ h
  obtain ⟨m₁, m₂, s₁, s₂, p, x, y, z, rest, hcs, -⟩ := tailMMSSms_eq_some.mp h
  exact ⟨_, hcs⟩

theorem tailMMSS_colon : ∀ cs a, tailMMSS cs = some a → ∃ r, cs = ':' :: r := by
  rintro cs ⟨m, s⟩ h
  obtain ⟨m₁, m₂, s₁, s₂, rest, hcs, -⟩ := tailMMSS_eq_some.mp h
  exact ⟨_, hcs⟩

theorem tailSSms_colon : ∀ cs a, tailSSms cs = some a → ∃ r, cs = ':' :: r := by
  rintro cs ⟨s, ms⟩ h
  obtain ⟨s₁, s₂, p, x, y, z, rest, hcs, -⟩ := tailSSms_eq_some.mp h
  exact ⟨_, hcs⟩

theorem tailSS_colon : ∀ cs a, tailSS cs = some a → ∃ r, cs = ':' :: r := by
  rintro cs s h
  obtain ⟨s₁, s₂, rest, hcs, -⟩ := tailSS_eq_some.mp h
  exact ⟨_, hcs⟩

theorem matchHMSms_iff {cs : List Char} {h m s ms : ℕ} :
    matchHMSms cs = some (h, m, s, ms) ↔ NotationHMSms cs h m s ms := by
  rw [matchHMSms, match12_eq_some tailMMSSms_colon]
  constructor
  · rintro (⟨c, c₂, r₂, ⟨am, as, ams⟩, rfl, hd, hd₂, ha, hb⟩ |
      ⟨c, r, ⟨am, as, ams⟩, rfl, hd, ha, hb⟩)
    · obtain ⟨m₁, m₂, s₁, s₂, p, x, y, z, rest, hr₂, hm₁, hm₂, hs₁, hs₂, hp, hx, hy, hz,
        hva, hvs, hvms⟩ := tailMMSSms_eq_some.mp ha
      injection hb with e1 e2
      injection e2 with e2 e3
      injection e3 with e3 e4
      subst e1; subst e2; subst e3; subst e4; subst hr₂
      refine ⟨rest, [c, c₂], [m₁, m₂], [s₁, s₂], [x, y, z], p, by simp, digitRun_two hd hd₂,
        by simp, digitRun_two hm₁ hm₂, rfl, digitRun_two hs₁ hs₂, rfl, hp,
        digitRun_three hx hy hz, rfl, ?_, ?_, ?_, ?_⟩
      · rw [digitsVal_two]
      · rw [digitsVal_two, hva]
      · rw [digitsVal_two, hvs]
      · rw [digitsVal_three, hvms]
    · obtain ⟨m₁, m₂, s₁, s₂, p, x, y, z, rest, hr, hm₁, hm₂, hs₁, hs₂, hp, hx, hy, hz,
        hva, hvs, hvms⟩ := tailMMSSms_eq_some.mp ha
      injection hb with e1 e2
      injection e2 with e2 e3
      injection e3 with e3 e4
      subst e1; subst e2; subst e3; subst e4; subst hr
      refine ⟨rest, [c], [m₁, m₂], [s₁, s₂], [x, y, z], p, by simp, digitRun_one hd,
        by simp, digitRun_two hm₁ hm₂, rfl, digitRun_two hs₁ hs₂, rfl, hp,
        digitRun_three hx hy hz, rfl, ?_, ?_, ?_, ?_⟩
      · rw [digitsVal_one]
      · rw [digitsVal_two, hva]
      · rw [digitsVal_two, hvs]
      · rw [digitsVal_three, hvms]
  · rintro ⟨rest, H, M, S, MS, sep, hcs, hH, hHlen, hM, hMlen, hS, hSlen, hsep, hMS, hMSlen,
      hvh, hvm, hvs, hvms⟩
    obtain ⟨m₁, m₂, rfl⟩ := List.length_eq_two.mp hMlen
    obtain ⟨s₁, s₂, rfl⟩ := List.length_eq_two.mp hSlen
    obtain ⟨x, y, z, rfl⟩ := List.length_eq_three.mp hMSlen
    have hm₁ := hM.2 m₁ (by simp)
    have hm₂ := hM.2 m₂ (by simp)
    have hs₁ := hS.2 s₁ (by simp)
    have hs₂ := hS.2 s₂ (by simp)
    have hx := hMS.2 x (by simp)
    have hy := hMS.2 y (by simp)
    have hz := hMS.2 z (by simp)
    have htail : tailMMSSms (':' :: m₁ :: m₂ :: ':' :: s₁ :: s₂ :: sep :: x :: y :: z :: rest)
        = some (m, s, ms) := by
      refine tailMMSSms_eq_some.mpr ⟨m₁, m₂, s₁, s₂, sep, x, y, z, rest, rfl, hm₁, hm₂,
        hs₁, hs₂, hsep, hx, hy, hz, ?_, ?_, ?_⟩
      · rw [hvm, digitsVal_two]
      · rw [hvs, digitsVal_two]
      · rw [hvms, digitsVal_three]
    have hHne := hH.1
    interval_cases hL : H.length
    · exact absurd (List.length_eq_zero.mp hL) hHne
    · obtain ⟨c, rfl⟩ := List.length_eq_one.mp hL
      refine Or.inr ⟨c, _, (m, s, ms), by simpa using hcs, hH.2 c (by simp), htail, ?_⟩
      rw [hvh, digitsVal_one]
    · obtain ⟨c, c₂, rfl⟩ := List.length_eq_two.mp hL
      refine Or.inl ⟨c, c₂, _, (m, s, ms), by simpa using hcs, hH.2 c (by simp),
        hH.2 c₂ (by simp), htail, ?_⟩
      rw [hvh, digitsVal_two]

theorem matchHMS_iff {cs : List Char} {h m s : ℕ} :
    matchHMS cs = some (h, m, s) ↔ NotationHMS cs h m s := by
  rw [matchHMS, match12_eq_some tailMMSS_colon]
  constructor
  · rintro (⟨c, c₂, r₂, ⟨am, as⟩, rfl, hd, hd₂, ha, hb⟩ | ⟨c, r, ⟨am, as⟩, rfl, hd, ha, hb⟩)
    · obtain ⟨m₁, m₂, s₁, s₂, rest, hr₂, hm₁, hm₂, hs₁, hs₂, hva, hvs⟩ :=
        tailMMSS_eq_some.mp ha
      injection hb with e1 e2
      injection e2 with e2 e3
      subst e1; subst e2; subst e3; subst hr₂
      refine ⟨rest, [c, c₂], [m₁, m₂], [s₁, s₂], by simp, digitRun_two hd hd₂, by simp,
        digitRun_two hm₁ hm₂, rfl, digitRun_two hs₁ hs₂, rfl, ?_, ?_, ?_⟩
      · rw [digitsVal_two]
      · rw [digitsVal_two, hva]
      · rw [digitsVal_two, hvs]
    · obtain ⟨m₁, m₂, s₁, s₂, rest, hr, hm₁, hm₂, hs₁, hs₂, hva, hvs⟩ :=
        tailMMSS_eq_some.mp ha
      injection hb with e1 e2
      injection e2 with e2 e3
      subst e1; subst e2; subst e3; subst hr
      refine ⟨rest, [c], [m₁, m₂], [s₁, s₂], by simp, digitRun_one hd, by simp,
        digitRun_two hm₁ hm₂, rfl, digitRun_two hs₁ hs₂, rfl, ?_, ?_, ?_⟩
      · rw [digitsVal_one]
      · rw [digitsVal_two, hva]
      · rw [digitsVal_two, hvs]
  · rintro ⟨rest, H, M, S, hcs, hH, hHlen, hM, hMlen, hS, hSlen, hvh, hvm, hvs⟩
    obtain ⟨m₁, m₂, rfl⟩ := List.length_eq_two.mp hMlen
    obtain ⟨s₁, s₂, rfl⟩ := List.length_eq_two.mp hSlen
    have hm₁ := hM.2 m₁ (by simp)
    have hm₂ := hM.2 m₂ (by simp)
    have hs₁ := hS.2 s₁ (by simp)
    have hs₂ := hS.2 s₂ (by simp)
    have htail : tailMMSS (':' :: m₁ :: m₂ :: ':' :: s₁ :: s₂ :: rest) = some (m, s) := by
      refine tailMMSS_eq_some.mpr ⟨m₁, m₂, s₁, s₂, rest, rfl, hm₁, hm₂, hs₁, hs₂, ?_, ?_⟩
      · rw [hvm, digitsVal_two]
      · rw [hvs, digitsVal_two]
    have hHne := hH.1
    interval_cases hL : H.length
    · exact absurd (List.length_eq_zero.mp hL) hHne
    · obtain ⟨c, rfl⟩ := List.length_eq_one.mp hL
      refine Or.inr ⟨c, _, (m, s), by simpa using hcs, hH.2 c (by simp), htail, ?_⟩
      rw [hvh, digitsVal_one]
    · obtain ⟨c, c₂, rfl⟩ := List.length_eq_two.mp hL
      refine Or.inl ⟨c, c₂, _, (m, s), by simpa using hcs, hH.2 c (by simp),
        hH.2 c₂ (by simp), htail, ?_⟩
      rw [hvh, digitsVal_two]

theorem matchMSms_iff {cs : List Char} {m s ms : ℕ} :
    matchMSms cs = some (m, s, ms) ↔ NotationMSms cs m s ms := by
  rw [matchMSms, match12_eq_some tailSSms_colon]
  constructor
  · rintro (⟨c, c₂, r₂, ⟨as, ams⟩, rfl, hd, hd₂, ha, hb⟩ | ⟨c, r, ⟨as, ams⟩, rfl, hd, ha, hb⟩)
    · obtain ⟨s₁, s₂, p, x, y, z, rest, hr₂, hs₁, hs₂, hp, hx, hy, hz, hvs, hvms⟩ :=
        tailSSms_eq_some.mp ha
      injection hb with e1 e2
      injection e2 with e2 e3
      subst e1; subst e2; subst e3; subst hr₂
      refine ⟨rest, [c, c₂], [s₁, s₂], [x, y, z], p, by simp, digitRun_two hd hd₂, by simp,
        digitRun_two hs₁ hs₂, rfl, hp, digitRun_three hx hy hz, rfl, ?_, ?_, ?_⟩
      · rw [digitsVal_two]
      · rw [digitsVal_two, hvs]
      · rw [digitsVal_three, hvms]
    · obtain ⟨s₁, s₂, p, x, y, z, rest, hr, hs₁, hs₂, hp, hx, hy, hz, hvs, hvms⟩ :=
        tailSSms_eq_some.mp ha
      injection hb with e1 e2
      injection e2 with e2 e3
      subst e1; subst e2; subst e3; subst hr
      refine ⟨rest, [c], [s₁, s₂], [x, y, z], p, by simp, digitRun_one hd, by simp,
        digitRun_two hs₁ hs₂, rfl, hp, digitRun_three hx hy hz, rfl, ?_, ?_, ?_⟩
      · rw [digitsVal_one]
      · rw [digitsVal_two, hvs]
      · rw [digitsVal_three, hvms]
  · rintro ⟨rest, M, S, MS, sep, hcs, hM, hMlen, hS, hSlen, hsep, hMS, hMSlen, hvm, hvs, hvms⟩
    obtain ⟨s₁, s₂, rfl⟩ := List.length_eq_two.mp hSlen
    obtain ⟨x, y, z, rfl⟩ := List.length_eq_three.mp hMSlen
    have hs₁ := hS.2 s₁ (by simp)
    have hs₂ := hS.2 s₂ (by simp)
    have hx := hMS.2 x (by simp)
    have hy := hMS.2 y (by simp)
    have hz := hMS.2 z (by simp)
    have htail : tailSSms (':' :: s₁ :: s₂ :: sep :: x :: y :: z :: rest) = some (s, ms) := by
      refine tailSSms_eq_some.mpr ⟨s₁, s₂, sep, x, y, z, rest, rfl, hs₁, hs₂, hsep,
        hx, hy, hz, ?_, ?_⟩
      · rw [hvs, digitsVal_two]
      · rw [hvms, digitsVal_three]
    have hMne := hM.1
    interval_cases hL : M.length
    · exact absurd (List.length_eq_zero.mp hL) hMne
    · obtain ⟨c, rfl⟩ := List.length_eq_one.mp hL
      refine Or.inr ⟨c, _, (s, ms), by simpa using hcs, hM.2 c (by simp), htail, ?_⟩
      rw [hvm, digitsVal_one]
    · obtain ⟨c, c₂, rfl⟩ := List.length_eq_two.mp hL
      refine Or.inl ⟨c, c₂, _, (s, ms), by simpa using hcs, hM.2 c (by simp),
        hM.2 c₂ (by simp), htail, ?_⟩
      rw [hvm, digitsVal_two]

theorem matchMS_iff {cs : List Char} {m s : ℕ} :
    matchMS cs = some (m, s) ↔ NotationMS cs m s := by
  rw [matchMS, match12_eq_some tailSS_colon]
  constructor
  · rintro (⟨c, c₂, r₂, as, rfl, hd, hd₂, ha, hb⟩ | ⟨c, r, as, rfl, hd, ha, hb⟩)
    · obtain ⟨s₁, s₂, rest, hr₂, hs₁, hs₂, hvs⟩ := tailSS_eq_some.mp ha
      injection hb with e1 e2
      subst e1; subst e2; subst hr₂
      refine ⟨rest, [c, c₂], [s₁, s₂], by simp, digitRun_two hd hd₂, by simp,
        digitRun_two hs₁ hs₂, rfl, ?_, ?_⟩
      · rw [digitsVal_two]
      · rw [digitsVal_two, hvs]
    · obtain ⟨s₁, s₂, rest, hr, hs₁, hs₂, hvs⟩ := tailSS_eq_some.mp ha
      injection hb with e1 e2
      subst e1; subst e2; subst hr
      refine ⟨rest, [c], [s₁, s₂], by simp, digitRun_one hd, by simp,
        digitRun_two hs₁ hs₂, rfl, ?_, ?_⟩
      · rw [digitsVal_one]
      · rw [digitsVal_two, hvs]
  · rintro ⟨rest, M, S, hcs, hM, hMlen, hS, hSlen, hvm, hvs⟩
    obtain ⟨s₁, s₂, rfl⟩ := List.length_eq_two.mp hSlen
    have hs₁ := hS.2 s₁ (by simp)
    have hs₂ := hS.2 s₂ (by simp)
    have htail : tailSS (':' :: s₁ :: s₂ :: rest) = some s := by
      refine tailSS_eq_some.mpr ⟨s₁, s₂, rest, rfl, hs₁, hs₂, ?_⟩
      rw [hvs, digitsVal_two]
    have hMne := hM.1
    interval_cases hL : M.length
    · exact absurd (List.length_eq_zero.mp hL) hMne
    · obtain ⟨c, rfl⟩ := List.length_eq_one.mp hL
      refine Or.inr ⟨c, _, s, by simpa using hcs, hM.2 c (by simp), htail, ?_⟩
      rw [hvm, digitsVal_one]
    · obtain ⟨c, c₂, rfl⟩ := List.length_eq_two.mp hL
      refine Or.inl ⟨c, c₂, _, s, by simpa using hcs, hM.2 c (by simp),
        hM.2 c₂ (by simp), htail, ?_⟩
      rw [hvm, digitsVal_two]

theorem readExpSign_other (c : Char) (t : List Char) (h1 : c ≠ '+') (h2 : c ≠ '-') :
    readExpSign (c :: t) = (false, c :: t) := by
  simp [readExpSign, h1, h2]

theorem pySign_other (c : Char) (t : List Char) (h1 : c ≠ '+') (h2 : c ≠ '-') :
    pySign (c :: t) = (1, c :: t) := by
  simp [pySign, h1, h2]

theorem append_eq_self {l l' : List Char} (h : l ++ l' = l) : l' = [] := by
  have := congrArg List.length h
  simp only [List.length_append] at this
  exact List.length_eq_zero.mp (by omega)

theorem digit_ne_plus {c : Char} (h : isDigitC c = true) : c ≠ '+' := by
  intro he; subst he; exact absurd h (by decide)

theorem digit_ne_minus {c : Char} (h : isDigitC c = true) : c ≠ '-' := by
  intro he; subst he; exact absurd h (by decide)

theorem readExpEnd_iff {cs : List Char} {ex : ℚ} :
    readExpEnd cs = some ex ↔ ExpShape cs ex := by
  constructor
  · intro h
    cases cs with
    | nil =>
      simp only [readExpEnd] at h
      injection h with h
      exact Or.inl ⟨rfl, h.symm⟩
    | cons c r =>
      simp only [readExpEnd] at h
      by_cases hc : c = 'e' ∨ c = 'E'
      · rw [if_pos hc] at h
        by_cases hcond : (readExpSign r).2.takeWhile isDigitC = [] ∨
            (readExpSign r).2.dropWhile isDigitC ≠ []
        · rw [if_pos hcond] at h; cases h
        · rw [if_neg hcond] at h
          injection h with h
          push_neg at hcond
          obtain ⟨hne, hdrop⟩ := hcond
          have hsplit := List.takeWhile_append_dropWhile isDigitC (readExpSign r).2
          rw [hdrop, List.append_nil] at hsplit
          have hdig : DigitRun (readExpSign r).2 :=
            ⟨by rw [← hsplit]; exact hne, fun x hx => List.mem_takeWhile_imp (hsplit ▸ hx)⟩
          rw [hsplit] at h
          cases r with
          | nil =>
            have hp : readExpSign ([] : List Char) = (false, []) := rfl
            rw [hp] at hdig
            exact absurd rfl hdig.1
          | cons c' t =>
            by_cases hplus : c' = '+'
            · subst hplus
              have hp : readExpSign ('+' :: t) = (false, t) := rfl
              rw [hp] at hdig h
              exact Or.inr ⟨c, ['+'], t, hc, rfl, hdig, Or.inr (Or.inl ⟨rfl, by
                simpa using h.symm⟩)⟩
            · by_cases hminus : c' = '-'
              · subst hminus
                have hp : readExpSign ('-' :: t) = (true, t) := rfl
                rw [hp] at hdig h
                exact Or.inr ⟨c, ['-'], t, hc, rfl, hdig, Or.inr (Or.inr ⟨rfl, by
                  simpa using h.symm⟩)⟩
              · have hp := readExpSign_other c' t hplus hminus
                rw [hp] at hdig h
                exact Or.inr ⟨c, [], c' :: t, hc, rfl, hdig, Or.inl ⟨rfl, by
                  simpa using h.symm⟩⟩
      · rw [if_neg hc] at h; cases h
  · intro h
    rcases h with ⟨hcs, hex⟩ | ⟨e, sc, ed, he, hcs, hed, hsc⟩
    · subst hcs; subst hex; rfl
    · subst hcs
      have htake : ed.takeWhile isDigitC = ed := List.takeWhile_eq_self_iff.mpr hed.2
      have hdrop : ed.dropWhile isDigitC = [] := by
        have := List.takeWhile_append_dropWhile isDigitC ed
        rw [htake] at this
        exact append_eq_self this
      rcases hsc with ⟨rfl, rfl⟩ | ⟨rfl, rfl⟩ | ⟨rfl, rfl⟩
      · obtain ⟨d, ed', rfl⟩ : ∃ d ed', ed = d :: ed' := by
          cases ed with
          | nil => exact absurd rfl hed.1
          | cons d ed' => exact ⟨d, ed', rfl⟩
        have hd := hed.2 d (by simp)
        have hp := readExpSign_other d ed' (digit_ne_plus hd) (digit_ne_minus hd)
        simp only [readExpEnd, List.nil_append, if_pos he]
        rw [hp]
        simp [htake, hdrop]
      · have hp : readExpSign ('+' :: ed) = (false, ed) := rfl
        simp only [readExpEnd, List.singleton_append, if_pos he]
        rw [hp]
        simp [htake, hdrop, hed.1]
      · have hp : readExpSign ('-' :: ed) = (true, ed) := rfl
        simp only [readExpEnd, List.singleton_append, if_pos he]
        rw [hp]
        simp [htake, hdrop, hed.1]

theorem expShape_head_not_digit {ec : List Char} {ex : ℚ} (h : ExpShape ec ex) :
    ∀ c, ec.head? = some c → isDigitC c = false := by
  rcases h with ⟨rfl, -⟩ | ⟨e, sc, ed, he, rfl, -, -⟩
  · intro c hc; cases hc
  · intro c hc
    simp only [List.head?_cons, Option.some.injEq] at hc
    subst hc
    rcases he with rfl | rfl <;> decide

theorem expShape_not_dot {ec : List Char} {ex : ℚ} (h : ExpShape ec ex) :
    ∀ t, ec ≠ '.' :: t := by
  rcases h with ⟨rfl, -⟩ | ⟨e, sc, ed, he, rfl, -, -⟩
  · intro t ht; cases ht
  · intro t ht
    injection ht with h1 h2
    rcases he with rfl | rfl <;> cases h1

theorem mantissa_iff {cs₁ : List Char} {v : ℚ} :
    pyMantissa cs₁ = some v ↔ MantShape cs₁ v := by
  constructor
  · intro h
    simp only [pyMantissa] at h
    split at h
    · rename_i cs₃ heq
      by_cases hcond : cs₁.takeWhile isDigitC = [] ∧ cs₃.takeWhile isDigitC = []
      · rw [if_pos hcond] at h; cases h
      · rw [if_neg hcond, Option.map_eq_some'] at h
        obtain ⟨e, hee, hval⟩ := h
        refine ⟨cs₁.takeWhile isDigitC, ['.'], cs₃.takeWhile isDigitC,
          cs₃.dropWhile isDigitC, e, ?_, fun c hc => List.mem_takeWhile_imp hc,
          fun c hc => List.mem_takeWhile_imp hc, Or.inr rfl, ?_, readExpEnd_iff.mp hee,
          hval.symm⟩
        · conv_lhs => rw [← List.takeWhile_append_dropWhile isDigitC cs₁]
          rw [heq]
          conv_lhs => rw [← List.takeWhile_append_dropWhile isDigitC cs₃]
          simp
        · intro hne
          rw [List.append_eq_nil] at hne
          exact hcond hne
    · rename_i hnotdot
      by_cases hip : cs₁.takeWhile isDigitC = []
      · rw [if_pos hip] at h; cases h
      · rw [if_neg hip, Option.map_eq_some'] at h
        obtain ⟨e, hee, hval⟩ := h
        refine ⟨cs₁.takeWhile isDigitC, [], [], cs₁.dropWhile isDigitC, e, ?_,
          fun c hc => List.mem_takeWhile_imp hc, by simp, Or.inl ⟨rfl, rfl⟩,
          by simpa using hip, readExpEnd_iff.mp hee, ?_⟩
        · simp [List.takeWhile_append_dropWhile]
        · rw [← hval]
          simp [digitsVal]
  · rintro ⟨ip, dp, fp, ec, ex, rfl, hip, hfp, hdp, hne, hexp, rfl⟩
    have hech := expShape_head_not_digit hexp
    rcases hdp with ⟨rfl, rfl⟩ | rfl
    · -- no dot, no fraction
      have hu := @takeWhile_unique isDigitC _ _ hip hech
      simp only [List.nil_append, List.append_nil] at hu ⊢
      have hipne : ip ≠ [] := by simpa using hne
      rcases hexp with ⟨rfl, rfl⟩ | ⟨e, sc2, ed, he, rfl, hed, hsc2⟩
      · simp only [pyMantissa, hu.1, hu.2]
        rw [if_neg hipne]
        simp [readExpEnd, digitsVal]
      · have hexp' : ExpShape (e :: (sc2 ++ ed)) ex :=
          Or.inr ⟨e, sc2, ed, he, rfl, hed, hsc2⟩
        rcases he with rfl | rfl <;>
        · simp only [pyMantissa, hu.1, hu.2]
          split
          · rename_i cs₃ heq
            exfalso
            injection heq with h1 h2
            exact absurd h1 (by decide)
          · rw [if_neg hipne, Option.map_eq_some']
            refine ⟨ex, readExpEnd_iff.mpr hexp', ?_⟩
            simp [digitsVal]
    · -- dot
      have hu : (ip ++ '.' :: (fp ++ ec)).takeWhile isDigitC = ip ∧
          (ip ++ '.' :: (fp ++ ec)).dropWhile isDigitC = '.' :: (fp ++ ec) :=
        takeWhile_unique hip (by intro c hc; simp at hc; subst hc; decide)
      have hu₂ := @takeWhile_unique isDigitC _ _ hfp hech
      have hassoc : ip ++ ['.'] ++ fp ++ ec = ip ++ '.' :: (fp ++ ec) := by simp
      rw [hassoc]
      have hcond : ¬(ip = [] ∧ (fp ++ ec).takeWhile isDigitC = []) := by
        rw [hu₂.1]
        intro hboth
        exact hne (by rw [List.append_eq_nil]; exact hboth)
      simp only [pyMantissa, hu.1, hu.2]
      rw [hu₂.1, hu₂.2]
      rw [if_neg (by rw [← hu₂.1]; exact hcond), Option.map_eq_some']
      exact ⟨ex, readExpEnd_iff.mpr hexp, rfl⟩

theorem mantShape_head {cs₁ : List Char} {v : ℚ} (h : MantShape cs₁ v) :
    ∃ c t, cs₁ = c :: t ∧ (isDigitC c = true ∨ c = '.') := by
  obtain ⟨ip, dp, fp, ec, ex, rfl, hip, hfp, hdp, hne, hexp, hv⟩ := h
  cases ip with
  | cons d ip' => exact ⟨d, ip' ++ dp ++ fp ++ ec, by simp, Or.inl (hip d (by simp))⟩
  | nil =>
    rcases hdp with ⟨rfl, rfl⟩ | rfl
    · simp at hne
    · exact ⟨'.', fp ++ ec, by simp, Or.inr rfl⟩

theorem pyFloat_iff {cs : List Char} {q : ℚ} :
    pyFloat? cs = some q ↔ NumberShape cs q := by
  constructor
  · intro h
    simp only [pyFloat?, Option.map_eq_some'] at h
    obtain ⟨v, hman, hq⟩ := h
    cases cs with
    | nil =>
      exact ⟨[], 1, [], v, rfl, Or.inl ⟨rfl, rfl⟩, mantissa_iff.mp hman, hq.symm⟩
    | cons c r =>
      by_cases hplus : c = '+'
      · subst hplus
        exact ⟨['+'], 1, r, v, rfl, Or.inr (Or.inl ⟨rfl, rfl⟩), mantissa_iff.mp hman, hq.symm⟩
      · by_cases hminus : c = '-'
        · subst hminus
          exact ⟨['-'], -1, r, v, rfl, Or.inr (Or.inr ⟨rfl, rfl⟩), mantissa_iff.mp
            (by rwa [show (pySign ('-' :: r)).2 = r from rfl] at hman), by
              rw [← hq]; rfl⟩
        · have hp := pySign_other c r hplus hminus
          rw [hp] at hman hq
          exact ⟨[], 1, c :: r, v, rfl, Or.inl ⟨rfl, rfl⟩, mantissa_iff.mp hman, hq.symm⟩
  · rintro ⟨sc, sgn, rest, v, rfl, hsc, hman, rfl⟩
    have hman' := mantissa_iff.mpr hman
    rcases hsc with ⟨rfl, rfl⟩ | ⟨rfl, rfl⟩ | ⟨rfl, rfl⟩
    · obtain ⟨c, t, hr, hc⟩ := mantShape_head hman
      have hcp : c ≠ '+' := by
        rcases hc with hd | rfl
        · exact digit_ne_plus hd
        · decide
      have hcm : c ≠ '-' := by
        rcases hc with hd | rfl
        · exact digit_ne_minus hd
        · decide
      have hp : pySign rest = (1, rest) := by rw [hr]; exact pySign_other c t hcp hcm
      simp only [List.nil_append, pyFloat?, hp, Option.map_eq_some']
      exact ⟨v, hman', rfl⟩
    · have hp : pySign ('+' :: rest) = (1, rest) := rfl
      simp only [List.singleton_append, pyFloat?, hp, Option.map_eq_some']
      exact ⟨v, hman', rfl⟩
    · have hp : pySign ('-' :: rest) = (-1, rest) := rfl
      simp only [List.singleton_append, pyFloat?, hp, Option.map_eq_some']
      exact ⟨v, hman', rfl⟩

/-- C4: `parse_timestamp` is total (it is a Lean function into ℚ) and tries,
in priority order against the prefix of the trimmed string, `H:MM:SS[.,]mmm`,
`H:MM:SS`, `M:SS[.,]mmm`, `M:SS`, then a bare number, converting the first
matching notation via `h*3600 + m*60 + s (+ ms/1000)`; a string matching none
of these notations yields `0.0`. -/
theorem parse_timestamp_spec (s : String) :
    (∀ h m sec ms, NotationHMSms (pyStrip s.data) h m sec ms →
      parse_timestamp s = h * 3600 + m * 60 + sec + (ms : ℚ) / 1000) ∧
    ((¬∃ h m sec ms, NotationHMSms (pyStrip s.data) h m sec ms) →
      ∀ h m sec, NotationHMS (pyStrip s.data) h m sec →
      parse_timestamp s = h * 3600 + m * 60 + sec) ∧
    ((¬∃ h m sec ms, NotationHMSms (pyStrip s.data) h m sec ms) →
      (¬∃ h m sec, NotationHMS (pyStrip s.data) h m sec) →
      ∀ m sec ms, NotationMSms (pyStrip s.data) m sec ms →
      parse_timestamp s = m * 60 + sec + (ms : ℚ) / 1000) ∧
    ((¬∃ h m sec ms, NotationHMSms (pyStrip s.data) h m sec ms) →
      (¬∃ h m sec, NotationHMS (pyStrip s.data) h m sec) →
      (¬∃ m sec ms, NotationMSms (pyStrip s.data) m sec ms) →
      ∀ m sec, NotationMS (pyStrip s.data) m sec →
      parse_timestamp s = m * 60 + sec) ∧
    (NoColonNotation (pyStrip s.data) →
      ∀ q, NumberShape (pyStrip s.data) q → parse_timestamp s = q) ∧
    (NoColonNotation (pyStrip s.data) → (¬∃ q, NumberShape (pyStrip s.data) q) →
      parse_timestamp s = 0) := by
  have hnone1 : (¬∃ h m sec ms, NotationHMSms (pyStrip s.data) h m sec ms) →
      matchHMSms (pyStrip s.data) = none := by
    intro hne
    cases hm : matchHMSms (pyStrip s.data) with
    | none => rfl
    | some v =>
      obtain ⟨h, m, sec, ms⟩ := v
      exact absurd ⟨h, m, sec, ms, matchHMSms_iff.mp hm⟩ hne
  have hnone2 : (¬∃ h m sec, NotationHMS (pyStrip s.data) h m sec) →
      matchHMS (pyStrip s.data) = none := by
    intro hne
    cases hm : matchHMS (pyStrip s.data) with
    | none => rfl
    | some v =>
      obtain ⟨h, m, sec⟩ := v
      exact absurd ⟨h, m, sec, matchHMS_iff.mp hm⟩ hne
  have hnone3 : (¬∃ m sec ms, NotationMSms (pyStrip s.data) m sec ms) →
      matchMSms (pyStrip s.data) = none := by
    intro hne
    cases hm : matchMSms (pyStrip s.data) with
    | none => rfl
    | some v =>
      obtain ⟨m, sec, ms⟩ := v
      exact absurd ⟨m, sec, ms, matchMSms_iff.mp hm⟩ hne
  have hnone4 : (¬∃ m sec, NotationMS (pyStrip s.data) m sec) →
      matchMS (pyStrip s.data) = none := by
    intro hne
    cases hm : matchMS (pyStrip s.data) with
    | none => rfl
    | some v =>
      obtain ⟨m, sec⟩ := v
      exact absurd ⟨m, sec, matchMS_iff.mp hm⟩ hne
  refine ⟨?_, ?_, ?_, ?_, ?_, ?_⟩
  · intro h m sec ms hn
    simp only [parse_timestamp, matchHMSms_iff.mpr hn]
  · intro hne1 h m sec hn
    simp only [parse_timestamp, hnone1 hne1, matchHMS_iff.mpr hn]
  · intro hne1 hne2 m sec ms hn
    simp only [parse_timestamp, hnone1 hne1, hnone2 hne2, matchMSms_iff.mpr hn]
  · intro hne1 hne2 hne3 m sec hn
    simp only [parse_timestamp, hnone1 hne1, hnone2 hne2, hnone3 hne3, matchMS_iff.mpr hn]
  · rintro ⟨hne1, hne2, hne3, hne4⟩ q hq
    simp only [parse_timestamp, hnone1 hne1, hnone2 hne2, hnone3 hne3, hnone4 hne4,
      pyFloat_iff.mpr hq, Option.getD_some]
  · rintro ⟨hne1, hne2, hne3, hne4⟩ hnum
    have hfl : pyFloat? (pyStrip s.data) = none := by
      cases hf : pyFloat? (pyStrip s.data) with
      | none => rfl
      | some q => exact absurd ⟨q, pyFloat_iff.mp hf⟩ hnum
    simp only [parse_timestamp, hnone1 hne1, hnone2 hne2, hnone3 hne3, hnone4 hne4, hfl,
      Option.getD_none]

/-- Witness for C4: `"abc"` matches no notation and yields `0.0`, and
`"1:02:03.456"` is an `H:MM:SS.mmm` notation converted by the formula. -/
theorem parse_timestamp_spec_witness :
    parse_timestamp "abc" = 0 ∧
    parse_timestamp "1:02:03.456" = 1 * 3600 + 2 * 60 + 3 + (456 : ℚ) / 1000 := by
  constructor
  · have hstrip : pyStrip "abc".data = ['a', 'b', 'c'] := rfl
    refine (parse_timestamp_spec "abc").2.2.2.2.2 ⟨?_, ?_, ?_, ?_⟩ ?_
    · rintro ⟨h, m, sec, ms, hn⟩
      have := matchHMSms_iff.mpr hn
      rw [show matchHMSms (pyStrip "abc".data) = none from rfl] at this
      cases this
    · rintro ⟨h, m, sec, hn⟩
      have := matchHMS_iff.mpr hn
      rw [show matchHMS (pyStrip "abc".data) = none from rfl] at this
      cases this
    · rintro ⟨m, sec, ms, hn⟩
      have := matchMSms_iff.mpr hn
      rw [show matchMSms (pyStrip "abc".data) = none from rfl] at this
      cases this
    · rintro ⟨m, sec, hn⟩
      have := matchMS_iff.mpr hn
      rw [show matchMS (pyStrip "abc".data) = none from rfl] at this
      cases this
    · rintro ⟨q, hq⟩
      have := pyFloat_iff.mpr hq
      rw [show pyFloat? (pyStrip "abc".data) = none from rfl] at this
      cases this
  · refine (parse_timestamp_spec "1:02:03.456").1 1 2 3 456
      ⟨[], ['1'], ['0', '2'], ['0', '3'], ['4', '5', '6'], '.', by decide,
        by constructor <;> decide, by decide, by constructor <;> decide, by decide,
        by constructor <;> decide, by decide, by decide, by constructor <;> decide,
        by decide, by decide, by decide, by decide, by decide⟩

/-! ### C5: timestamp round-trip -/

theorem dVal_lt_ten {c : Char} (h : isDigitC c = true) : dVal c < 10 := by
  simp only [isDigitC, Bool.and_eq_true, decide_eq_true_eq] at h
  simp only [dVal]
  have h48 : '0'.toNat = 48 := rfl
  rw [h48]
  omega

theorem seconds_render {x : ℚ} (h m sec : ℕ) (msq : ℚ)
    (hx : x = h * 3600 + m * 60 + sec + msq) (hm : m < 60) (hs : sec < 60)
    (h0 : 0 ≤ msq) (h1 : msq < 1) :
    seconds_to_timestamp x = renderHMS h m sec := by
  have hmq : (m : ℚ) ≤ 59 := by exact_mod_cast Nat.lt_succ_iff.mp hm
  have hsq : (sec : ℚ) ≤ 59 := by exact_mod_cast Nat.lt_succ_iff.mp hs
  have hm0 : (0 : ℚ) ≤ m := by positivity
  have hs0 : (0 : ℚ) ≤ sec := by positivity
  have hh0 : (0 : ℚ) ≤ h := by positivity
  have key1 : ⌊x / 3600⌋ = (h : ℤ) := by
    have hrw : x / 3600 = (((h : ℤ) : ℚ)) + ((m : ℚ) * 60 + sec + msq) / 3600 := by
      rw [hx]; push_cast; ring
    rw [hrw, add_comm, Int.floor_add_int]
    have : ⌊((m : ℚ) * 60 + sec + msq) / 3600⌋ = 0 := by
      rw [Int.floor_eq_zero_iff]
      constructor
      · positivity
      · rw [div_lt_one (by norm_num)]
        linarith
    rw [this, zero_add]
  have key2 : pyMod x 3600 = (m : ℚ) * 60 + sec + msq := by
    unfold pyMod
    rw [key1, hx]
    push_cast
    ring
  have key3 : ⌊pyMod x 3600 / 60⌋ = (m : ℤ) := by
    rw [key2]
    have hrw : ((m : ℚ) * 60 + sec + msq) / 60 = (((m : ℤ) : ℚ)) + ((sec : ℚ) + msq) / 60 := by
      push_cast; ring
    rw [hrw, add_comm, Int.floor_add_int]
    have : ⌊((sec : ℚ) + msq) / 60⌋ = 0 := by
      rw [Int.floor_eq_zero_iff]
      constructor
      · positivity
      · rw [div_lt_one (by norm_num)]
        linarith
    rw [this, zero_add]
  have key4 : ⌊x / 60⌋ = ((60 * h + m : ℕ) : ℤ) := by
    have hrw : x / 60 = (((60 * h + m : ℕ) : ℤ) : ℚ) + ((sec : ℚ) + msq) / 60 := by
      rw [hx]; push_cast; ring
    rw [hrw, add_comm, Int.floor_add_int]
    have : ⌊((sec : ℚ) + msq) / 60⌋ = 0 := by
      rw [Int.floor_eq_zero_iff]
      constructor
      · positivity
      · rw [div_lt_one (by norm_num)]
        linarith
    rw [this, zero_add]
  have key5 : ⌊pyMod x 60⌋ = (sec : ℤ) := by
    unfold pyMod
    rw [key4]
    have hrw : x - 60 * (((60 * h + m : ℕ) : ℤ) : ℚ) = (((sec : ℤ) : ℚ)) + msq := by
      rw [hx]; push_cast; ring
    rw [hrw, add_comm, Int.floor_add_int]
    have : ⌊msq⌋ = 0 := by
      rw [Int.floor_eq_zero_iff]
      exact ⟨h0, h1⟩
    rw [this, zero_add]
  unfold seconds_to_timestamp renderHMS
  rw [key1, key3, key5]

theorem count_zero_of_digits (x : Char) {l : List Char}
    (hl : ∀ c ∈ l, isDigitC c = true) (hx : isDigitC x = false) : l.count x = 0 := by
  rw [List.count_eq_zero]
  intro hmem
  rw [hl x hmem] at hx
  cases hx

theorem HMSms_colon_count {cs : List Char} {h m s ms : ℕ}
    (hn : NotationHMSms cs h m s ms) : 2 ≤ cs.count ':' := by
  obtain ⟨rest, H, M, S, MS, sep, rfl, -⟩ := hn
  simp [List.count_append, List.count_cons]
  omega

theorem HMS_colon_count {cs : List Char} {h m s : ℕ}
    (hn : NotationHMS cs h m s) : 2 ≤ cs.count ':' := by
  obtain ⟨rest, H, M, S, rfl, -⟩ := hn
  simp [List.count_append, List.count_cons]
  omega

theorem HMSms_sep_count {cs : List Char} {h m s ms : ℕ}
    (hn : NotationHMSms cs h m s ms) : 1 ≤ cs.count ',' + cs.count '.' := by
  obtain ⟨rest, H, M, S, MS, sep, rfl, -, -, -, -, -, -, hsep, -⟩ := hn
  rcases hsep with rfl | rfl <;>
    simp [List.count_append, List.count_cons] <;> omega

theorem MSms_sep_count {cs : List Char} {m s ms : ℕ}
    (hn : NotationMSms cs m s ms) : 1 ≤ cs.count ',' + cs.count '.' := by
  obtain ⟨rest, M, S, MS, sep, rfl, -, -, -, -, hsep, -⟩ := hn
  rcases hsep with rfl | rfl <;>
    simp [List.count_append, List.count_cons] <;> omega

theorem HMS_exact_no_sep {cs : List Char} {h m s : ℕ} (hn : NotationHMSR cs h m s []) :
    cs.count ',' = 0 ∧ cs.count '.' = 0 := by
  obtain ⟨H, M, S, rfl, hH, -, hM, -, hS, -, -, -, -⟩ := hn
  have h1 := count_zero_of_digits ',' hH.2 (by decide)
  have h2 := count_zero_of_digits ',' hM.2 (by decide)
  have h3 := count_zero_of_digits ',' hS.2 (by decide)
  have h4 := count_zero_of_digits '.' hH.2 (by decide)
  have h5 := count_zero_of_digits '.' hM.2 (by decide)
  have h6 := count_zero_of_digits '.' hS.2 (by decide)
  constructor <;> simp [List.count_append, List.count_cons, h1, h2, h3, h4, h5, h6]

theorem MSms_exact_one_colon {cs : List Char} {m s ms : ℕ}
    (hn : NotationMSmsR cs m s ms []) : cs.count ':' = 1 := by
  obtain ⟨M, S, MS, sep, rfl, hM, -, hS, -, hsep, hMS, -, -, -, -⟩ := hn
  have h1 := count_zero_of_digits ':' hM.2 (by decide)
  have h2 := count_zero_of_digits ':' hS.2 (by decide)
  have h3 := count_zero_of_digits ':' hMS.2 (by decide)
  rcases hsep with rfl | rfl <;>
    simp [List.count_append, List.count_cons, h1, h2, h3]

theorem MS_exact_counts {cs : List Char} {m s : ℕ} (hn : NotationMSR cs m s []) :
    cs.count ':' = 1 ∧ cs.count ',' = 0 ∧ cs.count '.' = 0 := by
  obtain ⟨M, S, rfl, hM, -, hS, -, -, -⟩ := hn
  have h1 := count_zero_of_digits ':' hM.2 (by decide)
  have h2 := count_zero_of_digits ':' hS.2 (by decide)
  have h3 := count_zero_of_digits ',' hM.2 (by decide)
  have h4 := count_zero_of_digits ',' hS.2 (by decide)
  have h5 := count_zero_of_digits '.' hM.2 (by decide)
  have h6 := count_zero_of_digits '.' hS.2 (by decide)
  refine ⟨?_, ?_, ?_⟩ <;>
    simp [List.count_append, List.count_cons, h1, h2, h3, h4, h5, h6]

/-- C5 (amended): for a timestamp string in one of the four colon notations,
matched exactly and with minute and second fields below 60, formatting the
parsed value reconstructs the (zero-padded) `HH:MM:SS` portion — with hour 0
for the `M:SS` forms.  The amendment restricts the fields to `m, s < 60`: the
counterexample `timestamp_roundtrip_counterexample` shows the claim fails for
notation strings with out-of-range fields, which the notations admit. -/
theorem timestamp_roundtrip (s : String) (h m sec ms : ℕ) (hm : m < 60) (hs : sec < 60) :
    (NotationHMSmsR (pyStrip s.data) h m sec ms [] →
      seconds_to_timestamp (parse_timestamp s) = renderHMS h m sec) ∧
    (NotationHMSR (pyStrip s.data) h m sec [] →
      seconds_to_timestamp (parse_timestamp s) = renderHMS h m sec) ∧
    (NotationMSmsR (pyStrip s.data) m sec ms [] →
      seconds_to_timestamp (parse_timestamp s) = renderHMS 0 m sec) ∧
    (NotationMSR (pyStrip s.data) m sec [] →
      seconds_to_timestamp (parse_timestamp s) = renderHMS 0 m sec) := by
  obtain ⟨c1, c2, c3, c4, -, -⟩ := parse_timestamp_spec s
  refine ⟨?_, ?_, ?_, ?_⟩
  · intro hn
    have hms_lt : ms < 1000 := by
      obtain ⟨H, M, S, MS, sep, -, -, -, -, -, -, -, -, hMS, hMSlen, -, -, -, hvms⟩ := hn
      obtain ⟨a, b, c, rfl⟩ := List.length_eq_three.mp hMSlen
      have h1 := dVal_lt_ten (hMS.2 a (by simp))
      have h2 := dVal_lt_ten (hMS.2 b (by simp))
      have h3 := dVal_lt_ten (hMS.2 c (by simp))
      rw [hvms, digitsVal_three]
      omega
    rw [c1 h m sec ms ⟨[], hn⟩]
    exact seconds_render h m sec ((ms : ℚ) / 1000) rfl hm hs (by positivity)
      (by rw [div_lt_one (by norm_num)]; exact_mod_cast hms_lt)
  · intro hn
    have hcnt := HMS_exact_no_sep hn
    have hne1 : ¬∃ a b c e, NotationHMSms (pyStrip s.data) a b c e := by
      rintro ⟨a, b, c, e, hx⟩
      have h1 := HMSms_sep_count hx
      omega
    rw [c2 hne1 h m sec ⟨[], hn⟩]
    exact seconds_render h m sec 0 (by ring) hm hs le_rfl (by norm_num)
  · intro hn
    have hcnt := MSms_exact_one_colon hn
    have hne1 : ¬∃ a b c e, NotationHMSms (pyStrip s.data) a b c e := by
      rintro ⟨a, b, c, e, hx⟩
      have h1 := HMSms_colon_count hx
      omega
    have hne2 : ¬∃ a b c, NotationHMS (pyStrip s.data) a b c := by
      rintro ⟨a, b, c, hx⟩
      have h1 := HMS_colon_count hx
      omega
    have hms_lt : ms < 1000 := by
      obtain ⟨M, S, MS, sep, -, -, -, -, -, -, hMS, hMSlen, -, -, hvms⟩ := hn
      obtain ⟨a, b, c, rfl⟩ := List.length_eq_three.mp hMSlen
      have h1 := dVal_lt_ten (hMS.2 a (by simp))
      have h2 := dVal_lt_ten (hMS.2 b (by simp))
      have h3 := dVal_lt_ten (hMS.2 c (by simp))
      rw [hvms, digitsVal_three]
      omega
    rw [c3 hne1 hne2 m sec ms ⟨[], hn⟩]
    exact seconds_render 0 m sec ((ms : ℚ) / 1000) (by push_cast; ring) hm hs (by positivity)
      (by rw [div_lt_one (by norm_num)]; exact_mod_cast hms_lt)
  · intro hn
    obtain ⟨hcnt1, hcnt2, hcnt3⟩ := MS_exact_counts hn
    have hne1 : ¬∃ a b c e, NotationHMSms (pyStrip s.data) a b c e := by
      rintro ⟨a, b, c, e, hx⟩
      have h1 := HMSms_colon_count hx
      omega
    have hne2 : ¬∃ a b c, NotationHMS (pyStrip s.data) a b c := by
      rintro ⟨a, b, c, hx⟩
      have h1 := HMS_colon_count hx
      omega
    have hne3 : ¬∃ a b c, NotationMSms (pyStrip s.data) a b c := by
      rintro ⟨a, b, c, hx⟩
      have h1 := MSms_sep_count hx
      omega
    rw [c4 hne1 hne2 hne3 m sec ⟨[], hn⟩]
    exact seconds_render 0 m sec 0 (by push_cast; ring) hm hs le_rfl (by norm_num)

/-- C5 counterexample: `"00:99:00"` and `"00:00:99"` are strings in the
`H:MM:SS` notation (the regex admits minute and second fields up to 99), but
`seconds_to_timestamp (parse_timestamp s)` normalizes the overflow and does
not reconstruct the `HH:MM:SS` portion of `s`. -/
theorem timestamp_roundtrip_counterexample :
    NotationHMSR "00:99:00".data 0 99 0 [] ∧
    seconds_to_timestamp (parse_timestamp "00:99:00") = "01:39:00" ∧
    ("01:39:00" : String) ≠ "00:99:00" ∧
    NotationHMSR "00:00:99".data 0 0 99 [] ∧
    seconds_to_timestamp (parse_timestamp "00:00:99") = "00:01:39" ∧
    ("00:01:39" : String) ≠ "00:00:99" := by
  have hshape1 : NotationHMSR "00:99:00".data 0 99 0 [] :=
    ⟨['0', '0'], ['9', '9'], ['0', '0'], by decide, by decide, by decide, by decide,
      by decide, by decide, by decide, by decide, by decide, by decide⟩
  have hshape2 : NotationHMSR "00:00:99".data 0 0 99 [] :=
    ⟨['0', '0'], ['0', '0'], ['9', '9'], by decide, by decide, by decide, by decide,
      by decide, by decide, by decide, by decide, by decide, by decide⟩
  have hnot1 : ∀ s : String, pyStrip s.data = s.data →
      matchHMSms s.data = none → (¬∃ a b c e, NotationHMSms (pyStrip s.data) a b c e) := by
    intro s hps hmn
    rintro ⟨a, b, c, e, hx⟩
    have := matchHMSms_iff.mpr hx
    rw [hps, hmn] at this
    cases this
  have hp1 : parse_timestamp "00:99:00" = 5940 := by
    rw [(parse_timestamp_spec "00:99:00").2.1 (hnot1 _ rfl rfl) 0 99 0 ⟨[], by
      rw [show pyStrip "00:99:00".data = "00:99:00".data from rfl]; exact hshape1⟩]
    norm_num
  have hp2 : parse_timestamp "00:00:99" = 99 := by
    rw [(parse_timestamp_spec "00:00:99").2.1 (hnot1 _ rfl rfl) 0 0 99 ⟨[], by
      rw [show pyStrip "00:00:99".data = "00:00:99".data from rfl]; exact hshape2⟩]
    norm_num
  refine ⟨hshape1, ?_, by decide, hshape2, ?_, by decide⟩
  · rw [hp1, seconds_render 1 39 0 0 (by norm_num) (by norm_num) (by norm_num) le_rfl
      (by norm_num)]
    decide
  · rw [hp2, seconds_render 0 1 39 0 (by norm_num) (by norm_num) (by norm_num) le_rfl
      (by norm_num)]
    decide

/-- Witness for C5 (amended): the spec's own example `"00:01:02,500"`. -/
theorem timestamp_roundtrip_witness :
    seconds_to_timestamp (parse_timestamp "00:01:02,500") = "00:01:02" := by
  have := (timestamp_roundtrip "00:01:02,500" 0 1 2 500 (by norm_num) (by norm_num)).1
    ⟨['0', '0'], ['0', '1'], ['0', '2'], ['5', '0', '0'], ',', by decide, by decide,
      by decide, by decide, by decide, by decide, by decide, by decide, by decide,
      by decide, by decide, by decide, by decide, by decide⟩
  rw [this]
  decide

/-! ### C2: frame merge -/

theorem mergeLoop_sublist (g : ℚ) : ∀ (l : List (ℚ × String)) (last : ℚ),
    (mergeLoop g l last).Sublist l := by
  intro l
  induction l with
  | nil => intro last; simp [mergeLoop]
  | cons x rest ih =>
    intro last
    obtain ⟨t, f⟩ := x
    rw [mergeLoop]
    split
    · exact (ih t).cons₂ (t, f)
    · exact (ih last).cons (t, f)

theorem mergeLoop_chain (g : ℚ) : ∀ (l : List (ℚ × String)) (last : ℚ),
    List.Chain' (fun a b => g ≤ b.1 - a.1) (mergeLoop g l last) ∧
    ∀ x, (mergeLoop g l last).head? = some x → g ≤ x.1 - last := by
  intro l
  induction l with
  | nil => intro last; simp [mergeLoop]
  | cons p rest ih =>
    intro last
    obtain ⟨t, f⟩ := p
    rw [mergeLoop]
    split
    · rename_i hkeep
      constructor
      · rw [List.chain'_cons']
        exact ⟨(ih t).2, (ih t).1⟩
      · intro x hx
        simp only [List.head?_cons, Option.some.injEq] at hx
        subst hx
        exact hkeep
    · exact ih last

/-- C2: for every pair of candidate frame lists and every `min_gap`, the list
returned by `merge_frames` is sorted ascending by timestamp, and any two
consecutive kept entries are at least `min_gap` apart. -/
theorem merge_frames_spec (baseline scene_changes : List (ℚ × String)) (min_gap : ℚ) :
    List.Chain' (fun a b => a.1 ≤ b.1) (merge_frames baseline scene_changes min_gap) ∧
    List.Chain' (fun a b => min_gap ≤ b.1 - a.1) (merge_frames baseline scene_changes min_gap) := by
  constructor
  · have hsorted : List.Pairwise (fun a b : ℚ × String => a.1 ≤ b.1)
        ((baseline ++ scene_changes).mergeSort (fun a b => decide (a.1 ≤ b.1))) := by
      have := @List.sorted_mergeSort (ℚ × String) (fun a b => decide (a.1 ≤ b.1))
        (by intro a b c hab hbc
            simp only [decide_eq_true_eq] at hab hbc ⊢
            exact le_trans hab hbc)
        (by intro a b
            simp only [Bool.or_eq_true, decide_eq_true_eq]
            exact le_total a.1 b.1)
        (baseline ++ scene_changes)
      exact this.imp (by intro a b h; simpa using h)
    exact (List.Pairwise.sublist (mergeLoop_sublist min_gap _ _) hsorted).chain'
  · exact (mergeLoop_chain min_gap _ _).1

/-! ### C3: downsampling -/

/-- C3: whenever the merged frame list is longer than the target count,
downsampling selects the frames at indices `⌊i·len/target⌋` for
`i ∈ 0..target-1`, so the output has exactly `target` frames and preserves
ascending-timestamp order. -/
theorem downsample_spec (frames : List (ℚ × String)) (target : ℕ)
    (hlen : target < frames.length)
    (hsorted : List.Pairwise (fun a b => a.1 ≤ b.1) frames) :
    downsample_frames frames target =
      (List.range target).map (fun i => frames.getD (i * frames.length / target) (0, "")) ∧
    (downsample_frames frames target).length = target ∧
    List.Pairwise (fun a b => a.1 ≤ b.1) (downsample_frames frames target) := by
  rw [downsample_frames, if_pos hlen]
  refine ⟨rfl, by simp, ?_⟩
  rw [List.pairwise_map, List.pairwise_iff_get]
  intro fi fj hfij
  simp only [List.get_eq_getElem, List.getElem_range]
  have hn : 0 < frames.length := by omega
  have hj : (fj : ℕ) < target := by simpa using fj.isLt
  have hij : (fi : ℕ) < (fj : ℕ) := hfij
  have hidxj : (fj : ℕ) * frames.length / target < frames.length := by
    rw [Nat.div_lt_iff_lt_mul (by omega)]
    rw [Nat.mul_comm frames.length target]
    exact (Nat.mul_lt_mul_right hn).mpr hj
  have hle : (fi : ℕ) * frames.length / target ≤ (fj : ℕ) * frames.length / target :=
    Nat.div_le_div_right (Nat.mul_le_mul_right frames.length (le_of_lt hij))
  obtain heq | hlt := eq_or_lt_of_le hle
  · rw [heq]
  · have hidxi : (fi : ℕ) * frames.length / target < frames.length :=
      lt_of_le_of_lt hle hidxj
    rw [List.getD_eq_getElem _ _ hidxi, List.getD_eq_getElem _ _ hidxj]
    have := List.pairwise_iff_get.mp hsorted ⟨_, hidxi⟩ ⟨_, hidxj⟩ hlt
    simpa using this

/-- Witness for C3 at a concrete input: three sorted frames downsampled to
two. -/
theorem downsample_spec_witness :
    (downsample_frames [(0, "a"), (1, "b"), (2, "c")] 2).length = 2 ∧
    List.Pairwise (fun a b : ℚ × String => a.1 ≤ b.1)
      (downsample_frames [(0, "a"), (1, "b"), (2, "c")] 2) :=
  ⟨(downsample_spec [(0, "a"), (1, "b"), (2, "c")] 2 (by decide) (by decide)).2.1,
   (downsample_spec [(0, "a"), (1, "b"), (2, "c")] 2 (by decide) (by decide)).2.2⟩

/-! ### C1: temporal aligner -/

theorem closestAux_ne_none (T : ℚ) : ∀ (l : List TranscriptSegment)
    (acc : Option (TranscriptSegment × ℚ)), closestAux T l acc = none →
    l = [] ∧ acc = none := by
  intro l
  induction l with
  | nil => intro acc h; exact ⟨rfl, by simpa [closestAux] using h⟩
  | cons x rest ih =>
    intro acc h
    simp only [closestAux] at h
    cases acc with
    | none =>
      have := (ih _ h).2
      simp at this
    | some p =>
      by_cases hb : |x.start_seconds - T| < p.2
      · have := (ih _ h).2
        simp [hb] at this
      · have := (ih _ h).2
        simp [hb] at this

theorem closestAux_min (T : ℚ) : ∀ (l : List TranscriptSegment)
    (acc : Option (TranscriptSegment × ℚ)) (s : TranscriptSegment) (d : ℚ),
    (∀ a da, acc = some (a, da) → da = |a.start_seconds - T|) →
    closestAux T l acc = some (s, d) →
      d = |s.start_seconds - T| ∧
      (s ∈ l ∨ acc = some (s, d)) ∧
      (∀ x ∈ l, d ≤ |x.start_seconds - T|) ∧
      (∀ a da, acc = some (a, da) → d ≤ da) := by
  intro l
  induction l with
  | nil =>
    intro acc s d hinv h
    simp only [closestAux] at h
    refine ⟨hinv s d h, Or.inr h, by simp, ?_⟩
    intro a da ha
    rw [h] at ha
    injection ha with ha'
    injection ha' with h1 h2
    rw [h2]
  | cons x rest ih =>
    intro acc s d hinv h
    simp only [closestAux] at h
    cases acc with
    | none =>
      simp only at h
      have hr := ih (some (x, |x.start_seconds - T|)) s d
        (by rintro a da ha; injection ha with ha'; injection ha' with h1 h2
            subst h1; exact h2.symm) h
      refine ⟨hr.1, ?_, ?_, by rintro a da ⟨⟩⟩
      · rcases hr.2.1 with hmem | hacc
        · exact Or.inl (List.mem_cons_of_mem x hmem)
        · injection hacc with ha'
          injection ha' with h1 h2
          subst h1
          exact Or.inl (List.mem_cons_self x rest)
      · intro y hy
        rcases List.mem_cons.mp hy with rfl | hy'
        · exact hr.2.2.2 y _ rfl
        · exact hr.2.2.1 y hy'
    | some p =>
      obtain ⟨a, da⟩ := p
      have hda : da = |a.start_seconds - T| := hinv a da rfl
      by_cases hb : |x.start_seconds - T| < da
      · simp only [hb, decide_eq_true_eq, if_pos] at h
        have hr := ih (some (x, |x.start_seconds - T|)) s d
          (by rintro a' da' ha'; injection ha' with ha''; injection ha'' with h1 h2
              subst h1; exact h2.symm) h
        refine ⟨hr.1, ?_, ?_, ?_⟩
        · rcases hr.2.1 with hmem | hacc
          · exact Or.inl (List.mem_cons_of_mem x hmem)
          · injection hacc with ha'
            injection ha' with h1 h2
            subst h1
            exact Or.inl (List.mem_cons_self x rest)
        · intro y hy
          rcases List.mem_cons.mp hy with rfl | hy'
          · exact hr.2.2.2 y _ rfl
          · exact hr.2.2.1 y hy'
        · rintro a' da' ha'
          injection ha' with ha''
          injection ha'' with h1 h2
          subst h2
          exact le_of_lt (lt_of_le_of_lt (hr.2.2.2 x _ rfl) hb)
      · rw [if_neg (by simp [hb])] at h
        have hr := ih (some (a, da)) s d hinv h
        refine ⟨hr.1, ?_, ?_, hr.2.2.2⟩
        · rcases hr.2.1 with hmem | hacc
          · exact Or.inl (List.mem_cons_of_mem x hmem)
          · exact Or.inr hacc
        · intro y hy
          rcases List.mem_cons.mp hy with rfl | hy'
          · have h1 := hr.2.2.2 a da rfl
            rw [hda] at h1
            push_neg at hb
            rw [hda] at hb
            exact le_trans h1 hb
          · exact hr.2.2.1 y hy'

/-- C1: for a frame at time `T`, `find_transcript_segment` returns the fields
of the first enclosing segment in document order; failing that, those of a
segment at minimal `|start − T|` provided that distance is under 10 seconds;
otherwise the "no transcript available" sentinel with no speaker. -/
theorem find_transcript_segment_spec (T : ℚ) (segments : List TranscriptSegment) :
    ((∃ s ∈ segments, s.start_seconds ≤ T ∧ T ≤ s.end_seconds) →
      ∃ pre m post, segments = pre ++ m :: post ∧
        (m.start_seconds ≤ T ∧ T ≤ m.end_seconds) ∧
        (∀ x ∈ pre, ¬(x.start_seconds ≤ T ∧ T ≤ x.end_seconds)) ∧
        find_transcript_segment T segments = (m.text, m.speaker_id, m.speaker_name)) ∧
    ((∀ s ∈ segments, ¬(s.start_seconds ≤ T ∧ T ≤ s.end_seconds)) →
      (∃ s ∈ segments, |s.start_seconds - T| < 10) →
      ∃ m ∈ segments, |m.start_seconds - T| < 10 ∧
        (∀ x ∈ segments, |m.start_seconds - T| ≤ |x.start_seconds - T|) ∧
        find_transcript_segment T segments = (m.text, m.speaker_id, m.speaker_name)) ∧
    ((∀ s ∈ segments, ¬(s.start_seconds ≤ T ∧ T ≤ s.end_seconds)) →
      (∀ s ∈ segments, 10 ≤ |s.start_seconds - T|) →
      find_transcript_segment T segments = ("[No transcript available]", none, none)) := by
  have hfind_none : (∀ s ∈ segments, ¬(s.start_seconds ≤ T ∧ T ≤ s.end_seconds)) →
      segments.find? (fun s =>
        decide (s.start_seconds ≤ T) && decide (T ≤ s.end_seconds)) = none := by
    intro hno
    rw [List.find?_eq_none]
    intro x hx
    simp only [Bool.and_eq_true, decide_eq_true_eq]
    exact fun hc => hno x hx hc
  refine ⟨?_, ?_, ?_⟩
  · rintro ⟨s, hs, hsp⟩
    have hsome : (segments.find? (fun s =>
        decide (s.start_seconds ≤ T) && decide (T ≤ s.end_seconds))).isSome := by
      rw [List.find?_isSome]
      exact ⟨s, hs, by simp [hsp.1, hsp.2]⟩
    obtain ⟨m, hm⟩ := Option.isSome_iff_exists.mp hsome
    obtain ⟨hpm, pre, post, hdecomp, hpre⟩ := List.find?_eq_some.mp hm
    refine ⟨pre, m, post, hdecomp, by simpa using hpm, ?_, ?_⟩
    · intro x hx
      have hx' := hpre x hx
      simp at hx'
      rintro ⟨h1, h2⟩
      rcases hx' with h | h
      · exact absurd h1 (not_le.mpr h)
      · exact absurd h2 (not_le.mpr h)
    · simp only [find_transcript_segment, hm]
  · intro hno hnear
    obtain ⟨w, hw, hwlt⟩ := hnear
    have hne : segments ≠ [] := by
      intro heq
      rw [heq] at hw
      cases hw
    cases hcl : closestAux T segments none with
    | none =>
      exact absurd (closestAux_ne_none T segments none hcl).1 hne
    | some p =>
      obtain ⟨m, d⟩ := p
      have hr := closestAux_min T segments none m d (by rintro a da ⟨⟩) hcl
      have hmem : m ∈ segments := by
        rcases hr.2.1 with h | h
        · exact h
        · cases h
      have hdlt : d < 10 := lt_of_le_of_lt (hr.2.2.1 w hw) hwlt
      refine ⟨m, hmem, by rw [← hr.1]; exact hdlt, ?_, ?_⟩
      · intro x hx
        rw [← hr.1]
        exact hr.2.2.1 x hx
      · simp only [find_transcript_segment, hfind_none hno, hcl]
        rw [if_pos hdlt]
  · intro hno hfar
    cases hcl : closestAux T segments none with
    | none =>
      simp only [find_transcript_segment, hfind_none hno, hcl]
    | some p =>
      obtain ⟨m, d⟩ := p
      have hr := closestAux_min T segments none m d (by rintro a da ⟨⟩) hcl
      have hmem : m ∈ segments := by
        rcases hr.2.1 with h | h
        · exact h
        · cases h
      have hge : ¬(d < 10) := by
        rw [hr.1]
        push_neg
        exact hfar m hmem
      simp only [find_transcript_segment, hfind_none hno, hcl]
      rw [if_neg hge]

/-- Witness for C1: a frame with the nearest segment starting at `T + 9.9`
is linked to it; with the nearest segment at `T + 10.1` it gets the
sentinel. -/
theorem find_transcript_segment_spec_witness :
    find_transcript_segment (101 / 10)
      [⟨20, 25, "hello", some "speaker_1", some "Bob"⟩] =
      ("hello", some "speaker_1", some "Bob") ∧
    find_transcript_segment (99 / 10)
      [⟨20, 25, "hello", some "speaker_1", some "Bob"⟩] =
      ("[No transcript available]", none, none) := by
  constructor
  · have h := (find_transcript_segment_spec (101 / 10)
      [⟨20, 25, "hello", some "speaker_1", some "Bob"⟩]).2.1
      (by intro s hs
          rw [List.mem_singleton] at hs
          subst hs
          push_neg
          intro hc
          norm_num at hc)
      (by refine ⟨_, List.mem_singleton_self _, ?_⟩
          show |(20 : ℚ) - 101 / 10| < 10
          rw [abs_lt]
          constructor <;> norm_num)
    obtain ⟨m, hm, -, -, heq⟩ := h
    rw [List.mem_singleton] at hm
    subst hm
    exact heq
  · exact (find_transcript_segment_spec (99 / 10)
      [⟨20, 25, "hello", some "speaker_1", some "Bob"⟩]).2.2
      (by intro s hs
          rw [List.mem_singleton] at hs
          subst hs
          push_neg
          intro hc
          norm_num at hc)
      (by intro s hs
          rw [List.mem_singleton] at hs
          subst hs
          show (10 : ℚ) ≤ |(20 : ℚ) - 99 / 10|
          rw [le_abs]
          left
          norm_num)

/-! ### C10: turn consolidation bookkeeping -/

theorem resolveSpeaker_ne_empty (o : Option String) : resolveSpeaker o ≠ "" := by
  cases o with
  | none => simp [resolveSpeaker]
  | some s =>
    by_cases h : s = "" <;> simp [resolveSpeaker, h]

theorem consolidateAux_headI : ∀ (l : List TranscriptSegment) (cur : String)
    (name : Option String) (st en : ℚ) (texts : List String),
    ∃ t rest, consolidateAux cur name st en texts l = t :: rest ∧
      t.speaker_id = if cur = "" then "unknown" else cur := by
  intro l
  induction l with
  | nil => intro cur name st en texts; exact ⟨_, _, rfl, rfl⟩
  | cons seg rest ih =>
    intro cur name st en texts
    simp only [consolidateAux]
    by_cases hsp : resolveSpeaker seg.speaker_id = cur
    · rw [if_pos hsp]
      exact ih cur name st seg.end_seconds (texts ++ [seg.text])
    · rw [if_neg hsp]
      exact ⟨_, _, rfl, rfl⟩

theorem consolidateAux_chain : ∀ (l : List TranscriptSegment) (cur : String)
    (name : Option String) (st en : ℚ) (texts : List String), cur ≠ "" →
    List.Chain' (fun a b => a.speaker_id ≠ b.speaker_id)
      (consolidateAux cur name st en texts l) := by
  intro l
  induction l with
  | nil =>
    intro cur name st en texts hcur
    simp only [consolidateAux]
    exact List.chain'_singleton _
  | cons seg rest ih =>
    intro cur name st en texts hcur
    simp only [consolidateAux]
    by_cases hsp : resolveSpeaker seg.speaker_id = cur
    · rw [if_pos hsp]
      exact ih cur name st seg.end_seconds (texts ++ [seg.text]) hcur
    · rw [if_neg hsp]
      obtain ⟨t, rest', heq, hid⟩ := consolidateAux_headI rest
        (resolveSpeaker seg.speaker_id) seg.speaker_name
        seg.start_seconds seg.end_seconds [seg.text]
      rw [heq]
      refine List.Chain'.cons ?_ ?_
      · have h1 : (mkTurn cur name st en texts).speaker_id = cur := by
          simp [mkTurn, hcur]
        have hne := resolveSpeaker_ne_empty seg.speaker_id
        rw [h1, hid, if_neg hne]
        exact fun hc => hsp hc.symm
      · rw [← heq]
        exact ih _ seg.speaker_name _ seg.end_seconds [seg.text]
          (resolveSpeaker_ne_empty _)

theorem consolidate_chain (segments : List TranscriptSegment) :
    List.Chain' (fun a b => a.speaker_id ≠ b.speaker_id) (consolidate segments) := by
  cases segments with
  | nil => simp [consolidate]
  | cons seg rest =>
    simp only [consolidate]
    exact consolidateAux_chain rest _ seg.speaker_name seg.start_seconds
      seg.end_seconds [seg.text] (resolveSpeaker_ne_empty _)

theorem sum_updateData (t : SpeakerSegment) : ∀ (acc : List (String × SpeakerData)),
    ((updateData acc t).map (fun e => e.2.turns)).sum =
    ((acc.map (fun e => e.2.turns)).sum) + 1 := by
  intro acc
  induction acc with
  | nil => simp [updateData]
  | cons e rest ih =>
    obtain ⟨k, d⟩ := e
    by_cases h : k = t.speaker_id
    · simp only [updateData, if_pos h, List.map_cons, List.sum_cons]
      omega
    · simp only [updateData, if_neg h, List.map_cons, List.sum_cons, ih]
      omega

theorem sum_foldl_updateData : ∀ (turns : List SpeakerSegment)
    (acc : List (String × SpeakerData)),
    (((turns.foldl updateData acc).map (fun e => e.2.turns)).sum) =
    ((acc.map (fun e => e.2.turns)).sum) + turns.length := by
  intro turns
  induction turns with
  | nil => intro acc; simp
  | cons t rest ih =>
    intro acc
    rw [List.foldl_cons, ih, sum_updateData]
    simp only [List.length_cons]
    omega

/-- C10: `compute_speaker_metrics` consolidates the segment list so that any
two consecutive returned turns carry distinct `speaker_id` values, and the
returned `total_turns` equals both the number of consolidated turns and the
sum of `turn_count` over all returned speaker metrics. -/
theorem compute_speaker_metrics_turns (segments : List TranscriptSegment) :
    List.Chain' (fun a b => a.speaker_id ≠ b.speaker_id)
      (compute_speaker_metrics segments).2.1 ∧
    (compute_speaker_metrics segments).2.2 =
      (compute_speaker_metrics segments).2.1.length ∧
    (compute_speaker_metrics segments).2.2 =
      ((compute_speaker_metrics segments).1.map (fun m => m.turn_count)).sum := by
  by_cases h : segments = []
  · simp [compute_speaker_metrics, h]
  · simp only [compute_speaker_metrics, if_neg h]
    refine ⟨consolidate_chain segments, ?_, ?_⟩
    · have hs := sum_foldl_updateData (consolidate segments) []
      simpa [speakerData] using hs
    · have hperm := (List.mergeSort_perm
        ((speakerData (consolidate segments)).map (mkMetrics
          (((speakerData (consolidate segments)).map (fun e => e.2.talk_time)).sum)))
        (fun a b => decide (b.talk_time_seconds ≤ a.talk_time_seconds))).map
        (fun m => m.turn_count)
      have hsum := hperm.sum_eq
      simp only [hsum, List.map_map]
      rfl

/-! ### C7: speaker identity counter -/

theorem taggedFrom_append : ∀ (xs : List String) (n : ℕ) (y : String),
    taggedFrom n (xs ++ [y]) = taggedFrom n xs ++ [(y, speakerTag (n + xs.length + 1))] := by
  intro xs
  induction xs with
  | nil => intro n y; simp [taggedFrom]
  | cons x xs ih =>
    intro n y
    simp only [List.cons_append, taggedFrom, List.length_cons, List.append_eq]
    rw [ih (n + 1) y]
    have h2 : n + 1 + xs.length = n + (xs.length + 1) := by omega
    rw [h2]

theorem taggedFrom_length : ∀ (xs : List String) (n : ℕ),
    (taggedFrom n xs).length = xs.length := by
  intro xs
  induction xs with
  | nil => intro n; rfl
  | cons x xs ih => intro n; simp [taggedFrom, ih]

theorem lookup_taggedFrom_none : ∀ (xs : List String) (n : ℕ) (l : String),
    l ∉ xs → (taggedFrom n xs).lookup l = none := by
  intro xs
  induction xs with
  | nil => intro n l _; rfl
  | cons x xs ih =>
    intro n l hl
    have hx : l ≠ x := fun hc => hl (hc ▸ List.mem_cons_self x xs)
    have hb : (l == x) = false := by simpa using hx
    simp only [taggedFrom, List.lookup, hb]
    exact ih (n + 1) l (fun hc => hl (List.mem_cons_of_mem x hc))

theorem lookup_taggedFrom_mem : ∀ (xs : List String) (n : ℕ) (l : String),
    l ∈ xs → (taggedFrom n xs).lookup l =
      some (speakerTag (n + idxOfStr xs l + 1)) := by
  intro xs
  induction xs with
  | nil => intro n l hl; cases hl
  | cons x xs ih =>
    intro n l hl
    by_cases hx : x = l
    · subst hx
      simp [taggedFrom, List.lookup, idxOfStr]
    · have hl' : l ∈ xs := by
        rcases List.mem_cons.mp hl with rfl | h
        · exact absurd rfl hx
        · exact h
      have hb : (l == x) = false := by
        simpa using fun (hc : l = x) => hx hc.symm
      simp only [taggedFrom, List.lookup, hb]
      rw [ih (n + 1) l hl', idxOfStr, if_neg hx]
      have : n + 1 + idxOfStr xs l + 1 = n + (idxOfStr xs l + 1) + 1 := by omega
      rw [this]

theorem foldl_counter : ∀ (labels : List String) (pre : List String),
    labels.foldl update_speaker_counter (taggedFrom 0 pre) =
    taggedFrom 0 (labels.foldl (fun acc l => if l ∈ acc then acc else acc ++ [l]) pre) := by
  intro labels
  induction labels with
  | nil => intro pre; rfl
  | cons l rest ih =>
    intro pre
    rw [List.foldl_cons, List.foldl_cons]
    by_cases hmem : l ∈ pre
    · rw [update_speaker_counter, lookup_taggedFrom_mem pre 0 l hmem, if_pos hmem]
      exact ih pre
    · rw [update_speaker_counter, lookup_taggedFrom_none pre 0 l hmem, if_neg hmem]
      have h1 : taggedFrom 0 pre ++
          [(l, (⟨['s','p','e','a','k','e','r','_'] ++ natRepr ((taggedFrom 0 pre).length + 1)⟩ : String))] =
          taggedFrom 0 (pre ++ [l]) := by
        rw [taggedFrom_append pre 0 l, taggedFrom_length, Nat.zero_add]
        rfl
      rw [h1]
      exact ih (pre ++ [l])

theorem mem_firstSeen_step : ∀ (labels pre : List String) (l : String),
    l ∈ labels ∨ l ∈ pre →
    l ∈ labels.foldl (fun acc x => if x ∈ acc then acc else acc ++ [x]) pre := by
  intro labels
  induction labels with
  | nil =>
    intro pre l h
    rcases h with h | h
    · cases h
    · exact h
  | cons x rest ih =>
    intro pre l h
    rw [List.foldl_cons]
    by_cases hx : x ∈ pre
    · rw [if_pos hx]
      apply ih
      rcases h with h | h
      · rcases List.mem_cons.mp h with rfl | h'
        · exact Or.inr hx
        · exact Or.inl h'
      · exact Or.inr h
    · rw [if_neg hx]
      apply ih
      rcases h with h | h
      · rcases List.mem_cons.mp h with rfl | h'
        · exact Or.inr (by simp)
        · exact Or.inl h'
      · exact Or.inr (List.mem_append_left _ h)

theorem idxOfStr_inj : ∀ (xs : List String) (l l' : String),
    l ∈ xs → l' ∈ xs → idxOfStr xs l = idxOfStr xs l' → l = l' := by
  intro xs
  induction xs with
  | nil => intro l l' hl _ _; cases hl
  | cons x rest ih =>
    intro l l' hl hl' heq
    by_cases h1 : x = l <;> by_cases h2 : x = l'
    · rw [← h1, ← h2]
    · rw [idxOfStr, if_pos h1, idxOfStr, if_neg h2] at heq
      cases heq
    · rw [idxOfStr, if_neg h1, idxOfStr, if_pos h2] at heq
      cases heq
    · rw [idxOfStr, if_neg h1, idxOfStr, if_neg h2] at heq
      have hl2 : l ∈ rest := by
        rcases List.mem_cons.mp hl with rfl | h
        · exact absurd rfl h1
        · exact h
      have hl2' : l' ∈ rest := by
        rcases List.mem_cons.mp hl' with rfl | h
        · exact absurd rfl h2
        · exact h
      exact ih l l' hl2 hl2' (by omega)

/-- C7: one pass of the shared `speaker_counter` update assigns each distinct
label the identifier `speaker_N` with `N` its first-seen rank, every
occurrence of the identical label resolves to that same identifier, and
distinct labels receive distinct identifiers. -/
theorem update_speaker_counter_spec (labels : List String) :
    (∀ l ∈ labels,
      (labels.foldl update_speaker_counter []).lookup l =
        some (speakerTag (idxOfStr (firstSeen labels) l + 1))) ∧
    (∀ l ∈ labels, ∀ l' ∈ labels, l ≠ l' →
      (labels.foldl update_speaker_counter []).lookup l ≠
        (labels.foldl update_speaker_counter []).lookup l') := by
  have hfold : labels.foldl update_speaker_counter [] = taggedFrom 0 (firstSeen labels) := by
    have h := foldl_counter labels []
    simpa [taggedFrom, firstSeen] using h
  have hmem : ∀ l ∈ labels, l ∈ firstSeen labels := by
    intro l hl
    exact mem_firstSeen_step labels [] l (Or.inl hl)
  constructor
  · intro l hl
    rw [hfold, lookup_taggedFrom_mem _ 0 l (hmem l hl), Nat.zero_add]
  · intro l hl l' hl' hne hc
    rw [hfold, lookup_taggedFrom_mem _ 0 l (hmem l hl),
      lookup_taggedFrom_mem _ 0 l' (hmem l' hl')] at hc
    have htag := speakerTag_injective (Option.some_injective _ hc)
    have hidx : idxOfStr (firstSeen labels) l = idxOfStr (firstSeen labels) l' := by omega
    exact hne (idxOfStr_inj (firstSeen labels) l l' (hmem l hl) (hmem l' hl') hidx)

/-- Witness for C7: in the pass `["Alice", "Bob", "Alice"]`, `"Alice"` maps to
`speaker_1` (also on its second occurrence) and `"Bob"` to `speaker_2`. -/
theorem update_speaker_counter_spec_witness :
    (["Alice", "Bob", "Alice"].foldl update_speaker_counter []).lookup "Alice" =
      some "speaker_1" ∧
    (["Alice", "Bob", "Alice"].foldl update_speaker_counter []).lookup "Bob" =
      some "speaker_2" := by
  have h := (update_speaker_counter_spec ["Alice", "Bob", "Alice"]).1
  constructor
  · rw [h "Alice" (by simp)]
    rfl
  · rw [h "Bob" (by simp)]
    rfl

/-! ### C6: talk-time percentage bookkeeping -/

theorem bankersRound_err (q : ℚ) : |(bankersRound q : ℚ) - q| ≤ 1 / 2 := by
  unfold bankersRound
  have h1 : (⌊q⌋ : ℚ) ≤ q := Int.floor_le q
  have h2 : q < ⌊q⌋ + 1 := Int.lt_floor_add_one q
  by_cases hc1 : q - ⌊q⌋ < 1 / 2
  · rw [if_pos hc1, abs_of_nonpos (by linarith)]
    linarith
  · rw [if_neg hc1]
    by_cases hc2 : 1 / 2 < q - ⌊q⌋
    · rw [if_pos hc2]
      push_cast
      rw [abs_of_nonneg (by linarith)]
      linarith
    · rw [if_neg hc2]
      push_neg at hc1 hc2
      by_cases hev : 2 ∣ ⌊q⌋
      · rw [if_pos hev, abs_of_nonpos (by linarith)]
        linarith
      · rw [if_neg hev]
        push_cast
        rw [abs_of_nonneg (by linarith)]
        linarith

theorem round1_err (q : ℚ) : |round1 q - q| ≤ 1 / 20 := by
  unfold round1
  have h := bankersRound_err (10 * q)
  have heq : (bankersRound (10 * q) : ℚ) / 10 - q =
      ((bankersRound (10 * q) : ℚ) - 10 * q) / 10 := by ring
  rw [heq, abs_div, abs_of_nonneg (by norm_num : (0 : ℚ) ≤ 10)]
  linarith

theorem sum_round1_err : ∀ (l : List ℚ),
    |(l.map round1).sum - l.sum| ≤ (l.length : ℚ) / 20 := by
  intro l
  induction l with
  | nil => simp
  | cons x xs ih =>
    simp only [List.map_cons, List.sum_cons, List.length_cons]
    have h1 := round1_err x
    have h3 : |round1 x + (xs.map round1).sum - (x + xs.sum)| ≤
        |round1 x - x| + |(xs.map round1).sum - xs.sum| := by
      have h4 : round1 x + (xs.map round1).sum - (x + xs.sum) =
          (round1 x - x) + ((xs.map round1).sum - xs.sum) := by ring
      rw [h4]
      exact abs_add _ _
    push_cast
    linarith

theorem round1_eq_of (q : ℚ) (n : ℤ) (h1 : (n : ℚ) + 1 / 2 < 10 * q)
    (h2 : 10 * q < n + 1) : round1 q = ((n : ℚ) + 1) / 10 := by
  unfold round1 bankersRound
  have hfl : ⌊10 * q⌋ = n := by
    rw [Int.floor_eq_iff]
    constructor
    · linarith
    · exact_mod_cast h2
  rw [hfl, if_neg (by linarith), if_pos (by linarith)]
  push_cast
  ring

theorem round1_zero : round1 0 = 0 := by
  unfold round1 bankersRound
  norm_num

/-- C6 (amended): when total talk time is positive the rounded percentages sum
to 100 within ±k/20 for k returned speaker metrics (±0.1 is guaranteed only
for k ≤ 2); when total talk time is 0 every `talk_time_pct` is 0. -/
theorem pct_sum (segments : List TranscriptSegment) :
    (0 < ((speakerData (consolidate segments)).map (fun e => e.2.talk_time)).sum →
      |((compute_speaker_metrics segments).1.map (fun m => m.talk_time_pct)).sum - 100| ≤
        ((compute_speaker_metrics segments).1.length : ℚ) / 20) ∧
    (((speakerData (consolidate segments)).map (fun e => e.2.talk_time)).sum = 0 →
      ∀ m ∈ (compute_speaker_metrics segments).1, m.talk_time_pct = 0) := by
  by_cases h : segments = []
  · constructor
    · intro htot
      simp [consolidate, speakerData, h] at htot
    · intro _ m hm
      simp [compute_speaker_metrics, h] at hm
  · simp only [compute_speaker_metrics, if_neg h]
    constructor
    · intro htot
      have hperm := (List.mergeSort_perm
        ((speakerData (consolidate segments)).map (mkMetrics
          (((speakerData (consolidate segments)).map (fun e => e.2.talk_time)).sum)))
        (fun a b => decide (b.talk_time_seconds ≤ a.talk_time_seconds))).map
        (fun m => m.talk_time_pct)
      rw [hperm.sum_eq, List.map_map, List.length_mergeSort, List.length_map]
      have hfun : ((fun m : SpeakerMetrics => m.talk_time_pct) ∘ (mkMetrics
          (((speakerData (consolidate segments)).map (fun e => e.2.talk_time)).sum))) =
          (fun e : String × SpeakerData => round1 (e.2.talk_time /
            (((speakerData (consolidate segments)).map (fun e => e.2.talk_time)).sum) * 100)) := by
        funext e
        simp only [Function.comp, mkMetrics, if_pos htot]
      rw [hfun]
      have hmm : (speakerData (consolidate segments)).map
          (fun e : String × SpeakerData => round1 (e.2.talk_time /
            (((speakerData (consolidate segments)).map (fun e => e.2.talk_time)).sum) * 100)) =
          ((speakerData (consolidate segments)).map
            (fun e : String × SpeakerData => e.2.talk_time /
              (((speakerData (consolidate segments)).map (fun e => e.2.talk_time)).sum) * 100)).map
            round1 := by
        rw [List.map_map]
        rfl
      rw [hmm]
      have herr := sum_round1_err ((speakerData (consolidate segments)).map
        (fun e : String × SpeakerData => e.2.talk_time /
          (((speakerData (consolidate segments)).map (fun e => e.2.talk_time)).sum) * 100))
      have hsum : ((speakerData (consolidate segments)).map
          (fun e : String × SpeakerData => e.2.talk_time /
            (((speakerData (consolidate segments)).map (fun e => e.2.talk_time)).sum) * 100)).sum
          = 100 := by
        have hfun2 : (fun e : String × SpeakerData => e.2.talk_time /
            (((speakerData (consolidate segments)).map (fun e => e.2.talk_time)).sum) * 100) =
            (fun e : String × SpeakerData => e.2.talk_time *
              (100 / (((speakerData (consolidate segments)).map (fun e => e.2.talk_time)).sum))) := by
          funext e
          ring
        rw [hfun2, List.sum_map_mul_right, mul_comm, div_mul_cancel₀]
        exact ne_of_gt htot
      rw [hsum, List.length_map] at herr
      exact herr
    · intro h0 m hm
      rw [List.mem_mergeSort] at hm
      obtain ⟨e, he, rfl⟩ := List.mem_map.mp hm
      have hneg : ¬(0 <
          ((speakerData (consolidate segments)).map (fun e => e.2.talk_time)).sum) := by
        rw [h0]
        exact lt_irrefl 0
      simp only [mkMetrics, if_neg hneg]
      exact round1_zero

theorem sum_pct_mergeSort (l : List (String × SpeakerData)) (t : ℚ) :
    (((l.map (mkMetrics t)).mergeSort
      (fun a b => decide (b.talk_time_seconds ≤ a.talk_time_seconds))).map
      (fun m => m.talk_time_pct)).sum =
    (l.map (fun e => round1 (if 0 < t then e.2.talk_time / t * 100 else 0))).sum := by
  have hperm := (List.mergeSort_perm (l.map (mkMetrics t))
    (fun a b => decide (b.talk_time_seconds ≤ a.talk_time_seconds))).map
    (fun m : SpeakerMetrics => m.talk_time_pct)
  rw [hperm.sum_eq, List.map_map]
  rfl

/-- Counterexample for C6: six speakers with equal talk time each get
`talk_time_pct` rounded to 16.7, so the percentages sum to 100.2, outside
±0.1 although total talk time is positive. -/
theorem pct_sum_counterexample :
    ∃ segments : List TranscriptSegment,
      0 < ((speakerData (consolidate segments)).map (fun e => e.2.talk_time)).sum ∧
      ((compute_speaker_metrics segments).1.map (fun m => m.talk_time_pct)).sum = 1002 / 10 ∧
      ¬ |((compute_speaker_metrics segments).1.map (fun m => m.talk_time_pct)).sum - 100| ≤
          1 / 10 := by
  have hdata : speakerData (consolidate [⟨0, 1, "a", some "s1", none⟩,
      ⟨0, 1, "b", some "s2", none⟩, ⟨0, 1, "c", some "s3", none⟩,
      ⟨0, 1, "d", some "s4", none⟩, ⟨0, 1, "e", some "s5", none⟩,
      ⟨0, 1, "f", some "s6", none⟩]) =
      [("s1", ⟨(1 : ℚ) - 0, 1, 1, none⟩), ("s2", ⟨(1 : ℚ) - 0, 1, 1, none⟩),
       ("s3", ⟨(1 : ℚ) - 0, 1, 1, none⟩), ("s4", ⟨(1 : ℚ) - 0, 1, 1, none⟩),
       ("s5", ⟨(1 : ℚ) - 0, 1, 1, none⟩), ("s6", ⟨(1 : ℚ) - 0, 1, 1, none⟩)] := rfl
  have hsum : ((compute_speaker_metrics [⟨0, 1, "a", some "s1", none⟩,
      ⟨0, 1, "b", some "s2", none⟩, ⟨0, 1, "c", some "s3", none⟩,
      ⟨0, 1, "d", some "s4", none⟩, ⟨0, 1, "e", some "s5", none⟩,
      ⟨0, 1, "f", some "s6", none⟩]).1.map (fun m => m.talk_time_pct)).sum = 1002 / 10 := by
    simp only [compute_speaker_metrics, if_neg (by simp : ¬([⟨0, 1, "a", some "s1", none⟩,
      ⟨0, 1, "b", some "s2", none⟩, ⟨0, 1, "c", some "s3", none⟩,
      ⟨0, 1, "d", some "s4", none⟩, ⟨0, 1, "e", some "s5", none⟩,
      ⟨0, 1, "f", some "s6", none⟩] : List TranscriptSegment) = [])]
    rw [sum_pct_mergeSort, hdata]
    simp only [List.map_cons, List.map_nil, List.sum_cons, List.sum_nil]
    have hpos : (0 : ℚ) < (1 : ℚ) - 0 + ((1 : ℚ) - 0 + ((1 : ℚ) - 0 + ((1 : ℚ) - 0 +
        ((1 : ℚ) - 0 + ((1 : ℚ) - 0 + 0))))) := by norm_num
    simp only [if_pos hpos]
    have harg : ((1 : ℚ) - 0) / ((1 : ℚ) - 0 + ((1 : ℚ) - 0 + ((1 : ℚ) - 0 + ((1 : ℚ) - 0 +
        ((1 : ℚ) - 0 + ((1 : ℚ) - 0 + 0)))))) * 100 = 50 / 3 := by norm_num
    rw [harg]
    have h167 : round1 ((50 : ℚ) / 3) = 167 / 10 := by
      have hr := round1_eq_of ((50 : ℚ) / 3) 166 (by norm_num) (by norm_num)
      rw [hr]
      norm_num
    rw [h167]
    norm_num
  refine ⟨[⟨0, 1, "a", some "s1", none⟩, ⟨0, 1, "b", some "s2", none⟩,
    ⟨0, 1, "c", some "s3", none⟩, ⟨0, 1, "d", some "s4", none⟩,
    ⟨0, 1, "e", some "s5", none⟩, ⟨0, 1, "f", some "s6", none⟩], ?_, hsum, ?_⟩
  · rw [hdata]
    simp only [List.map_cons, List.map_nil, List.sum_cons, List.sum_nil]
    norm_num
  · rw [hsum]
    have habs : |(1002 : ℚ) / 10 - 100| = 1 / 5 := by
      rw [show (1002 : ℚ) / 10 - 100 = 1 / 5 from by norm_num,
        abs_of_nonneg (by norm_num : (0 : ℚ) ≤ 1 / 5)]
    rw [habs]
    norm_num

/-- Witness for C6: two speakers with talk times 3 and 7 give percentages
summing within the bound, with positive total talk time. -/
theorem pct_sum_witness :
    0 < ((speakerData (consolidate [⟨0, 3, "hi", some "s1", none⟩,
      ⟨3, 10, "yo", some "s2", none⟩])).map (fun e => e.2.talk_time)).sum ∧
    |((compute_speaker_metrics [⟨0, 3, "hi", some "s1", none⟩,
      ⟨3, 10, "yo", some "s2", none⟩]).1.map (fun m => m.talk_time_pct)).sum - 100| ≤
      ((compute_speaker_metrics [⟨0, 3, "hi", some "s1", none⟩,
        ⟨3, 10, "yo", some "s2", none⟩]).1.length : ℚ) / 20 := by
  have hdata : speakerData (consolidate [⟨0, 3, "hi", some "s1", none⟩,
      ⟨3, 10, "yo", some "s2", none⟩]) =
      [("s1", ⟨(3 : ℚ) - 0, 1, 1, none⟩), ("s2", ⟨(10 : ℚ) - 3, 1, 1, none⟩)] := rfl
  have hpos : 0 < ((speakerData (consolidate [⟨0, 3, "hi", some "s1", none⟩,
      ⟨3, 10, "yo", some "s2", none⟩])).map (fun e => e.2.talk_time)).sum := by
    rw [hdata]
    simp only [List.map_cons, List.map_nil, List.sum_cons, List.sum_nil]
    norm_num
  exact ⟨hpos, (pct_sum [⟨0, 3, "hi", some "s1", none⟩,
    ⟨3, 10, "yo", some "s2", none⟩]).1 hpos⟩

/-! ### C9: the leading-name speaker heuristic -/

/-- C9 (amended): the VTT and SRT `"Name: "` heuristics accept a candidate
only if it has at most 4 space-separated tokens and no digit, and on
rejection leave the (tag-stripped) line as ordinary text with no speaker;
the freeform parser's embedded heuristic, by contrast, tests only the token
count, so digit-containing candidates are accepted there. -/
theorem speaker_heuristic (line : List Char) :
    (reMatch voiceRe line = none →
      ∀ ps, (extract_speaker_from_vtt_line line).1 = some ps →
        wordCount ps ≤ 4 ∧ ¬(hasDigitC ps = true)) ∧
    (reMatch voiceRe line = none →
      ∀ caps, reMatch colonRe line = some caps →
        ¬(wordCount (pyStrip (capsGet caps 1)) ≤ 4 ∧
          ¬(hasDigitC (pyStrip (capsGet caps 1)) = true)) →
        extract_speaker_from_vtt_line line = (none, stripTags line)) ∧
    (∀ ps, (srtCleanLine line).1 = some ps →
      wordCount ps ≤ 4 ∧ ¬(hasDigitC ps = true)) ∧
    (∀ caps, reMatch colonRe (stripTags line) = some caps →
      ¬(wordCount (pyStrip (capsGet caps 1)) ≤ 4 ∧
        ¬(hasDigitC (pyStrip (capsGet caps 1)) = true)) →
      srtCleanLine line = (none, stripTags line)) ∧
    (∀ ps, (embeddedSpeaker line).1 = some ps → wordCount ps ≤ 4) ∧
    (∀ caps, reMatch embeddedRe line = some caps →
      ¬(wordCount (pyStrip (capsGet caps 1)) ≤ 4) →
      embeddedSpeaker line = (none, line)) := by
  refine ⟨?_, ?_, ?_, ?_, ?_, ?_⟩
  · intro hv ps h
    simp only [extract_speaker_from_vtt_line, hv] at h
    cases hc : reMatch colonRe line with
    | none => simp only [hc] at h; cases h
    | some caps =>
      simp only [hc] at h
      by_cases hcond : wordCount (pyStrip (capsGet caps 1)) ≤ 4 ∧
          ¬(hasDigitC (pyStrip (capsGet caps 1)) = true)
      · simp only [if_pos hcond] at h
        injection h with h'
        rw [← h']
        exact hcond
      · simp only [if_neg hcond] at h
        cases h
  · intro hv caps hc hcond
    simp only [extract_speaker_from_vtt_line, hv, hc, if_neg hcond]
  · intro ps h
    simp only [srtCleanLine] at h
    cases hc : reMatch colonRe (stripTags line) with
    | none => simp only [hc] at h; cases h
    | some caps =>
      simp only [hc] at h
      by_cases hcond : wordCount (pyStrip (capsGet caps 1)) ≤ 4 ∧
          ¬(hasDigitC (pyStrip (capsGet caps 1)) = true)
      · simp only [if_pos hcond] at h
        injection h with h'
        rw [← h']
        exact hcond
      · simp only [if_neg hcond] at h
        cases h
  · intro caps hc hcond
    simp only [srtCleanLine, hc, if_neg hcond]
  · intro ps h
    simp only [embeddedSpeaker] at h
    cases hc : reMatch embeddedRe line with
    | none => simp only [hc] at h; cases h
    | some ec =>
      simp only [hc] at h
      by_cases hcond : wordCount (pyStrip (capsGet ec 1)) ≤ 4
      · simp only [if_pos hcond] at h
        injection h with h'
        rw [← h']
        exact hcond
      · simp only [if_neg hcond] at h
        cases h
  · intro caps hc hcond
    simp only [embeddedSpeaker, hc, if_neg hcond]

/-- Counterexample for C9: the freeform parser accepts the digit-containing
candidate `"Agent 007"` as a speaker label (its embedded heuristic checks
only the token count), contradicting the claimed no-digit condition. -/
theorem speaker_heuristic_counterexample :
    ∃ content : String,
      (parse_plain_text content).map (fun s => s.speaker_name) =
        [some "Agent 007"] ∧
      hasDigitC ("Agent 007").data = true := by
  exact ⟨"00:10 - Agent 007: hello", by decide, by decide⟩

/-- Witness for C9: `"Bob: hi"` is accepted by the SRT heuristic, and the
theorem yields that `"Bob"` has at most 4 tokens and no digit. -/
theorem speaker_heuristic_witness :
    (srtCleanLine ("Bob: hi").data).1 = some ("Bob").data ∧
    wordCount ("Bob").data ≤ 4 ∧ ¬(hasDigitC ("Bob").data = true) := by
  have h1 : (srtCleanLine ("Bob: hi").data).1 = some ("Bob").data := by decide
  exact ⟨h1, (speaker_heuristic ("Bob: hi").data).2.2.1 ("Bob").data h1⟩

/-! ### C8: emptiness of emitted segment text -/

theorem tryG_some {k : List Char → Caps → Option Caps} {s : List Char} {caps res : Caps} :
    ∀ j, tryG k s caps j = some res → ∃ m, k (s.drop m) caps = some res := by
  intro j
  induction j with
  | zero =>
    intro h
    simp only [tryG] at h
    exact ⟨0, by simpa using h⟩
  | succ j ih =>
    intro h
    simp only [tryG] at h
    rw [orElse_eq_some_iff] at h
    rcases h with h | ⟨-, h⟩
    · exact ⟨j + 1, h⟩
    · exact ih h

theorem tryP_some {k : List Char → Caps → Option Caps} {s : List Char} {caps res : Caps} :
    ∀ j, tryP k s caps j = some res → ∃ m, 1 ≤ m ∧ k (s.drop m) caps = some res := by
  intro j
  induction j with
  | zero =>
    intro h
    simp [tryP] at h
  | succ j ih =>
    intro h
    simp only [tryP] at h
    rw [orElse_eq_some_iff] at h
    rcases h with h | ⟨-, h⟩
    · exact ⟨j + 1, by omega, h⟩
    · exact ih h

theorem tryL_some {k : List Char → Caps → Option Caps} {s : List Char} {caps res : Caps} :
    ∀ f j, tryL k s caps f j = some res → ∃ m, k (s.drop m) caps = some res := by
  intro f
  induction f with
  | zero =>
    intro j h
    simp only [tryL] at h
    exact ⟨j, h⟩
  | succ f ih =>
    intro j h
    simp only [tryL] at h
    rw [orElse_eq_some_iff] at h
    rcases h with h | ⟨-, h⟩
    · exact ⟨j, h⟩
    · exact ih (j + 1) h

theorem reM_some : ∀ (r : RE) (s : List Char) (caps : Caps)
    (k : List Char → Caps → Option Caps) (res : Caps),
    reM r s caps k = some res → ∃ m caps', k (s.drop m) caps' = some res := by
  intro r
  induction r with
  | eps =>
    intro s caps k res h
    simp only [reM] at h
    exact ⟨0, caps, by simpa using h⟩
  | lit c =>
    intro s caps k res h
    cases s with
    | nil => simp only [reM] at h; cases h
    | cons x r =>
      simp only [reM] at h
      by_cases hx : x = c
      · rw [if_pos hx] at h
        exact ⟨1, caps, h⟩
      · rw [if_neg hx] at h
        cases h
  | cls p =>
    intro s caps k res h
    cases s with
    | nil => simp only [reM] at h; cases h
    | cons x r =>
      simp only [reM] at h
      by_cases hx : p x = true
      · rw [if_pos hx] at h
        exact ⟨1, caps, h⟩
      · rw [if_neg hx] at h
        cases h
  | starG p =>
    intro s caps k res h
    simp only [reM] at h
    obtain ⟨m, hm⟩ := tryG_some _ h
    exact ⟨m, caps, hm⟩
  | plusG p =>
    intro s caps k res h
    simp only [reM] at h
    obtain ⟨m, -, hm⟩ := tryP_some _ h
    exact ⟨m, caps, hm⟩
  | starL p =>
    intro s caps k res h
    simp only [reM] at h
    obtain ⟨m, hm⟩ := tryL_some _ _ h
    exact ⟨m, caps, hm⟩
  | grp n r ih =>
    intro s caps k res h
    simp only [reM] at h
    obtain ⟨m, c', hk⟩ := ih _ _ _ _ h
    exact ⟨m, (n, s.take (s.length - (s.drop m).length)) :: c', hk⟩
  | seq a b iha ihb =>
    intro s caps k res h
    simp only [reM] at h
    obtain ⟨m₁, c₁, h₁⟩ := iha _ _ _ _ h
    obtain ⟨m₂, c₂, h₂⟩ := ihb _ _ _ _ h₁
    rw [List.drop_drop] at h₂
    exact ⟨m₁ + m₂, c₂, h₂⟩
  | eol =>
    intro s caps k res h
    cases s with
    | nil =>
      simp only [reM] at h
      exact ⟨0, caps, by simpa using h⟩
    | cons x r => simp only [reM] at h; cases h

theorem reM_seq_some (a b : RE) (s : List Char) (caps : Caps)
    (k : List Char → Caps → Option Caps) (res : Caps)
    (h : reM (.seq a b) s caps k = some res) :
    ∃ m caps', reM b (s.drop m) caps' k = some res := by
  simp only [reM] at h
  obtain ⟨m, c', hk⟩ := reM_some a _ _ _ _ h
  exact ⟨m, c', hk⟩

theorem reM_tail_plus (n : ℕ) (p : Char → Bool) (s : List Char) (caps : Caps)
    (k : List Char → Caps → Option Caps) (res : Caps)
    (h : reM (.seq (.grp n (.plusG p)) (.seq .eol .eps)) s caps k = some res) :
    s ≠ [] ∧ k [] ((n, s) :: caps) = some res := by
  have hs : s ≠ [] := by
    intro hnil
    rw [hnil] at h
    simp [reM, tryP] at h
  simp only [reM] at h
  obtain ⟨m, hm1, hk⟩ := tryP_some _ h
  cases hd : s.drop m with
  | cons c t =>
    rw [hd] at hk
    simp only [reM] at hk
    cases hk
  | nil =>
    rw [hd] at hk
    simp only [reM, List.length_nil, Nat.sub_zero, List.take_length] at hk
    exact ⟨hs, hk⟩

theorem mem_of_getLast : ∀ (l : List Char) (c : Char), l.getLast? = some c → c ∈ l := by
  intro l
  induction l with
  | nil => intro c h; cases h
  | cons x t ih =>
    intro c h
    cases t with
    | nil =>
      simp only [List.getLast?_singleton] at h
      injection h with h'
      rw [← h']
      exact List.mem_singleton_self x
    | cons y u =>
      rw [List.getLast?_cons_cons] at h
      exact List.mem_cons_of_mem x (ih c h)

theorem getLast_append_right : ∀ (l₁ l₂ : List Char), l₂ ≠ [] →
    (l₁ ++ l₂).getLast? = l₂.getLast? := by
  intro l₁
  induction l₁ with
  | nil => intro l₂ _; rw [List.nil_append]
  | cons x t ih =>
    intro l₂ h2
    rw [List.cons_append]
    have hne : t ++ l₂ ≠ [] := by
      intro hc
      exact h2 (List.append_eq_nil.mp hc).2
    obtain ⟨y, u, heq⟩ := List.exists_cons_of_ne_nil hne
    rw [heq, List.getLast?_cons_cons, ← heq]
    exact ih l₂ h2

theorem getLast_drop : ∀ (m : ℕ) (l : List Char), l.drop m ≠ [] →
    (l.drop m).getLast? = l.getLast? := by
  intro m
  induction m with
  | zero => intro l _; rw [List.drop_zero]
  | succ m ih =>
    intro l hne
    cases l with
    | nil => simp at hne
    | cons x t =>
      rw [List.drop_succ_cons] at hne ⊢
      rw [ih t hne]
      have ht : t ≠ [] := by
        intro hc
        rw [hc] at hne
        simp at hne
      obtain ⟨y, u, heq⟩ := List.exists_cons_of_ne_nil ht
      rw [heq, List.getLast?_cons_cons]

theorem reSeq_cons (x : RE) (l : List RE) : reSeq (x :: l) = .seq x (reSeq l) := rfl

theorem reM_seq_tail : ∀ (rs : List RE) (n : ℕ) (p : Char → Bool) (s : List Char)
    (caps res : Caps),
    reM (reSeq (rs ++ [.grp n (.plusG p), .eol])) s caps (fun _ c => some c) = some res →
    ∃ t c', t ≠ [] ∧ res = (n, t) :: c' ∧ t.getLast? = s.getLast? := by
  intro rs
  induction rs with
  | nil =>
    intro n p s caps res h
    rw [List.nil_append] at h
    obtain ⟨hne, hk⟩ := reM_tail_plus n p s caps _ res h
    injection hk with hk'
    exact ⟨s, caps, hne, hk'.symm, rfl⟩
  | cons x rest ih =>
    intro n p s caps res h
    rw [List.cons_append, reSeq_cons] at h
    obtain ⟨m, c', h'⟩ := reM_seq_some _ _ _ _ _ _ h
    obtain ⟨t, c'', hne, hres, hlast⟩ := ih n p _ c' res h'
    have hdne : s.drop m ≠ [] := by
      intro hc
      rw [hc] at hlast
      have h2 : t.getLast?.isSome := List.getLast?_isSome.mpr hne
      rw [hlast] at h2
      simp at h2
    exact ⟨t, c'', hne, hres, by rw [hlast]; exact getLast_drop m s hdne⟩

theorem pyStrip_getLast {l : List Char} {c : Char} (h : (pyStrip l).getLast? = some c) :
    isPySpace c = false := by
  rw [pyStrip, List.getLast?_reverse] at h
  exact head_dropWhile h

theorem pyStrip_ne_nil {l : List Char} {c : Char} (h : l.getLast? = some c)
    (hc : isPySpace c = false) : pyStrip l ≠ [] := by
  intro hnil
  rw [pyStrip, List.reverse_eq_nil_iff, List.dropWhile_eq_nil_iff] at hnil
  have hne : l.dropWhile isPySpace ≠ [] := by
    intro hd
    rw [List.dropWhile_eq_nil_iff] at hd
    have h2 := hd c (mem_of_getLast l c h)
    rw [hc] at h2
    cases h2
  have hsplit : l.takeWhile isPySpace ++ l.dropWhile isPySpace = l :=
    List.takeWhile_append_dropWhile isPySpace l
  have hgl : (l.dropWhile isPySpace).getLast? = l.getLast? := by
    conv_rhs => rw [← hsplit]
    exact (getLast_append_right _ _ hne).symm
  have hcl : c ∈ l.dropWhile isPySpace := mem_of_getLast _ c (by rw [hgl]; exact h)
  have h3 := hnil c (by rw [List.mem_reverse]; exact hcl)
  rw [hc] at h3
  cases h3

theorem strip_capture_ne {l t' : List Char} (hne : t' ≠ [])
    (hlast : t'.getLast? = (pyStrip l).getLast?) : pyStrip t' ≠ [] := by
  cases hl : t'.getLast? with
  | none =>
    have h2 : t'.getLast?.isSome := List.getLast?_isSome.mpr hne
    rw [hl] at h2
    simp at h2
  | some c =>
    have hc : isPySpace c = false := pyStrip_getLast (by rw [← hlast]; exact hl)
    exact pyStrip_ne_nil hl hc

theorem capsGet_head (n : ℕ) (t : List Char) (c : Caps) : capsGet ((n, t) :: c) n = t := by
  simp [capsGet, List.lookup]

theorem tryPatterns_text (l : List Char) (item : ℚ × List Char × Option (List Char))
    (hit : tryPatterns (pyStrip l) = some item) : item.2.1 ≠ [] := by
  simp only [tryPatterns] at hit
  cases h1 : reMatch p1Re (pyStrip l) with
  | some caps =>
    simp only [h1] at hit
    have h1' := h1
    simp only [reMatch, p1Re] at h1'
    obtain ⟨t', c', htne, hres, hlast⟩ := reM_seq_tail
      [.grp 1 (.seq (.cls isAlphaAZ) (.starL (fun c => !(isOpenBr c || isCloseBr c)))),
       .starG isPySpace, .cls isOpenBr, .grp 2 (.plusG isTsChar), .cls isCloseBr,
       .lit ':', .starG isPySpace] 3 isAnyCh (pyStrip l) [] caps h1'
    injection hit with hit'
    rw [← hit']
    show pyStrip (capsGet caps 3) ≠ []
    rw [hres, capsGet_head]
    exact strip_capture_ne htne hlast
  | none =>
    simp only [h1] at hit
    cases h2 : reMatch p2Re (pyStrip l) with
    | some caps =>
      simp only [h2] at hit
      have h2' := h2
      simp only [reMatch, p2Re] at h2'
      obtain ⟨t', c', htne, hres, hlast⟩ := reM_seq_tail
        [.cls isOpenBr, .grp 1 (.plusG isTsChar), .cls isCloseBr, .starG isPySpace,
         .grp 2 (.seq (.cls isAlphaAZ) (.starL (fun c => c != ':'))), .lit ':',
         .starG isPySpace] 3 isAnyCh (pyStrip l) [] caps h2'
      injection hit with hit'
      rw [← hit']
      show pyStrip (capsGet caps 3) ≠ []
      rw [hres, capsGet_head]
      exact strip_capture_ne htne hlast
    | none =>
      simp only [h2] at hit
      have hemb : ∀ caps2, item.2.1 = (embeddedSpeaker (pyStrip (capsGet caps2 2))).2 →
          (∃ t' c', t' ≠ [] ∧ caps2 = (2, t') :: c' ∧
            t'.getLast? = (pyStrip l).getLast?) → item.2.1 ≠ [] := by
        intro caps2 hi ⟨t', c', htne, hres, hlast⟩
        rw [hi, hres, capsGet_head]
        have hstrip : pyStrip t' ≠ [] := strip_capture_ne htne hlast
        simp only [embeddedSpeaker]
        cases he : reMatch embeddedRe (pyStrip t') with
        | none => exact hstrip
        | some ec =>
          dsimp only
          by_cases hcond : wordCount (pyStrip (capsGet ec 1)) ≤ 4
          · rw [if_pos hcond]
            have he' := he
            simp only [reMatch, embeddedRe] at he'
            obtain ⟨u, c'', hune, hres2, hlast2⟩ := reM_seq_tail
              [.grp 1 (.seq (.cls isAlphaAZ) (.starL (fun c => c != ':'))), .lit ':',
               .starG isPySpace] 2 isAnyCh (pyStrip t') [] ec he'
            show pyStrip (capsGet ec 2) ≠ []
            rw [hres2, capsGet_head]
            exact strip_capture_ne hune hlast2
          · rw [if_neg hcond]
            exact hstrip
      cases h3 : reMatch p3Re (pyStrip l) with
      | some caps =>
        simp only [h3] at hit
        have h3' := h3
        simp only [reMatch, p3Re] at h3'
        injection hit with hit'
        refine hemb caps (by rw [← hit']) ?_
        exact reM_seq_tail [.cls isOpenBr, .grp 1 (.plusG isTsChar), .cls isCloseBr,
          .starG isPySpace] 2 isAnyCh (pyStrip l) [] caps h3'
      | none =>
        simp only [h3] at hit
        cases h4 : reMatch p4Re (pyStrip l) with
        | some caps =>
          simp only [h4] at hit
          have h4' := h4
          simp only [reMatch, p4Re] at h4'
          injection hit with hit'
          refine hemb caps (by rw [← hit']) ?_
          exact reM_seq_tail [.grp 1 (.plusG isTsChar), .starG isPySpace,
            .cls (fun c => c = '-' || c = ':'), .starG isPySpace] 2 isAnyCh
            (pyStrip l) [] caps h4'
        | none =>
          simp only [h4] at hit
          cases hit

theorem plainItems_text (content : String) :
    ∀ item ∈ plainItems content, item.2.1 ≠ [] := by
  intro item h
  simp only [plainItems, List.mem_filterMap] at h
  obtain ⟨l, hl, hit⟩ := h
  by_cases ht : pyStrip l = []
  · rw [if_pos ht] at hit
    cases hit
  · rw [if_neg ht] at hit
    exact tryPatterns_text l item hit

theorem mk_ne_empty {cs : List Char} (h : cs ≠ []) : (⟨cs⟩ : String) ≠ "" := by
  intro hc
  exact h (congrArg String.data hc)

theorem plainToSegments_text : ∀ (items : List (ℚ × List Char × Option (List Char)))
    (counter : List (String × String)), (∀ it ∈ items, it.2.1 ≠ []) →
    ∀ seg ∈ plainToSegments counter items, seg.text ≠ "" := by
  intro items
  induction items with
  | nil =>
    intro counter _ seg hs
    simp only [plainToSegments] at hs
    cases hs
  | cons it rest ih =>
    intro counter hall seg hs
    obtain ⟨ts, text, sp⟩ := it
    have htext : text ≠ [] := hall _ (List.mem_cons_self _ _)
    have htail : ∀ it ∈ rest, it.2.1 ≠ [] :=
      fun it hit => hall it (List.mem_cons_of_mem _ hit)
    simp only [plainToSegments] at hs
    cases sp with
    | none =>
      rcases List.mem_cons.mp hs with rfl | hs'
      · exact mk_ne_empty htext
      · exact ih _ htail seg hs'
    | some s =>
      dsimp only at hs
      by_cases hsne : s ≠ []
      · rw [if_pos hsne] at hs
        rcases List.mem_cons.mp hs with rfl | hs'
        · exact mk_ne_empty htext
        · exact ih _ htail seg hs'
      · rw [if_neg hsne] at hs
        rcases List.mem_cons.mp hs with rfl | hs'
        · exact mk_ne_empty htext
        · exact ih _ htail seg hs'

theorem collectText_nonempty : ∀ (lines : List (List Char)),
    ∀ x ∈ (collectText lines).1, x ≠ [] := by
  intro lines
  induction lines with
  | nil =>
    intro x hx
    simp only [collectText] at hx
    cases hx
  | cons line rest ih =>
    intro x hx
    simp only [collectText] at hx
    by_cases h1 : pyStrip line = [] ∨ (reMatch tsPairRe (pyStrip line)).isSome = true
    · rw [if_pos h1] at hx
      cases hx
    · rw [if_neg h1] at hx
      by_cases h2 : (pyStrip line ≠ [] ∧ (pyStrip line).all isDigitC = true) ∨
          ['N', 'O', 'T', 'E'].isPrefixOf (pyStrip line) = true
      · rw [if_pos h2] at hx
        exact ih x hx
      · rw [if_neg h2] at hx
        by_cases h3 : (extract_speaker_from_vtt_line (pyStrip line)).2 ≠ []
        · rw [if_pos h3] at hx
          rcases List.mem_cons.mp hx with rfl | hx'
          · exact h3
          · exact ih x hx'
        · rw [if_neg h3] at hx
          exact ih x hx

theorem joinSp_ne_nil : ∀ (l : List (List Char)), l ≠ [] → (∀ x ∈ l, x ≠ []) →
    joinSp l ≠ [] := by
  intro l
  match l with
  | [] => intro h _; exact absurd rfl h
  | [x] =>
    intro _ hall
    simp only [joinSp]
    exact hall x (List.mem_singleton_self x)
  | x :: y :: t =>
    intro _ _
    simp only [joinSp]
    simp

theorem vttLoopF_text : ∀ (f : ℕ) (counter : List (String × String))
    (lines : List (List Char)), ∀ seg ∈ vttLoopF f counter lines, seg.text ≠ "" := by
  intro f
  induction f with
  | zero =>
    intro counter lines seg hs
    simp only [vttLoopF] at hs
    cases hs
  | succ f ih =>
    intro counter lines seg hs
    cases lines with
    | nil =>
      simp only [vttLoopF] at hs
      cases hs
    | cons line rest =>
      simp only [vttLoopF] at hs
      cases hm : reMatch tsPairRe (pyStrip line) with
      | none =>
        rw [hm] at hs
        exact ih counter rest seg hs
      | some caps =>
        rw [hm] at hs
        dsimp only at hs
        by_cases hr : (collectText rest).1 ≠ []
        · rw [if_pos hr] at hs
          have htext : (⟨joinSp (collectText rest).1⟩ : String) ≠ "" :=
            mk_ne_empty (joinSp_ne_nil _ hr (collectText_nonempty rest))
          cases hsp : (collectText rest).2.1 with
          | some sp =>
            rw [hsp] at hs
            dsimp only at hs
            by_cases hspne : sp ≠ []
            · rw [if_pos hspne] at hs
              rcases List.mem_cons.mp hs with rfl | hs'
              · exact htext
              · exact ih _ _ seg hs'
            · rw [if_neg hspne] at hs
              rcases List.mem_cons.mp hs with rfl | hs'
              · exact htext
              · exact ih _ _ seg hs'
          | none =>
            rw [hsp] at hs
            rcases List.mem_cons.mp hs with rfl | hs'
            · exact htext
            · exact ih _ _ seg hs'
        · rw [if_neg hr] at hs
          exact ih _ _ seg hs

/-- C8 (amended): the cue-block (VTT) and freeform parsers never emit a
segment with empty text — their cleaned text lines are collected only when
non-empty and the segment is emitted only when text remains — but the indexed
cue-block (SRT) parser appends its segment unconditionally and can emit a
segment with empty text (e.g. a block with no text line after the timestamp
line). -/
theorem parsers_nonempty_text (content : String) :
    (∀ seg ∈ parse_vtt content, seg.text ≠ "") ∧
    (∀ seg ∈ parse_plain_text content, seg.text ≠ "") := by
  constructor
  · intro seg hs
    simp only [parse_vtt, vttLoop] at hs
    exact vttLoopF_text _ _ _ seg hs
  · intro seg hs
    simp only [parse_plain_text] at hs
    exact plainToSegments_text _ [] (plainItems_text content) seg hs

/-- Counterexample for C8: an SRT block with a cue number and a timestamp
line but no text yields a segment whose text is the empty string — the SRT
parser has no emptiness check before appending. -/
theorem parsers_nonempty_counterexample :
    (parse_srt "1\n00:00:01,000 --> 00:00:02,000").map (fun s => s.text) = [""] := by
  decide

/-- Witness for C8: on a one-cue VTT document and a one-line freeform
document, the first emitted segment of each parser has non-empty text. -/
theorem parsers_nonempty_text_witness :
    ((parse_vtt "WEBVTT\n\n00:00:01.000 --> 00:00:02.000\nBob: hi").getD 0
      ⟨0, 0, "", none, none⟩).text ≠ "" ∧
    ((parse_plain_text "00:10 - Bob: hi").getD 0 ⟨0, 0, "", none, none⟩).text ≠ "" := by
  constructor
  · apply (parsers_nonempty_text "WEBVTT\n\n00:00:01.000 --> 00:00:02.000\nBob: hi").1
    have hlen : 0 < (parse_vtt "WEBVTT\n\n00:00:01.000 --> 00:00:02.000\nBob: hi").length := by
      decide
    rw [List.getD_eq_getElem _ _ hlen]
    exact List.getElem_mem hlen
  · apply (parsers_nonempty_text "00:10 - Bob: hi").2
    have hlen : 0 < (parse_plain_text "00:10 - Bob: hi").length := by decide
    rw [List.getD_eq_getElem _ _ hlen]
    exact List.getElem_mem hlen

end VP
